import Mathlib

/-!
# Verification of the perspective-rectification engine (`src/utils/perspective.ts`)

This file gives a shallow embedding of the perspective-warp core of the
repository and proves/refutes the frozen claims about it.

Modelling conventions:

* JavaScript `number` arithmetic is idealised as exact arithmetic over a
  linear ordered field (instantiated at `ℚ` for concrete evaluation); this is
  the idealisation the claims themselves use ("in exact real arithmetic").
* For the claim about NaN propagation on singular systems (C6) we use a second
  number type `JNum` that models IEEE special values (`NaN`, `±∞`) exactly,
  with exact rational arithmetic on finite values.
* A raster is modelled as its dimensions together with a pixel function
  `ℕ → ℕ → Pixel`; the RGBA channels are natural numbers.  The pixel-copy
  loop of the source writes each destination pixel once, so it is embedded
  as a function of the destination coordinates.
* `Math.round` in JavaScript rounds half-way cases up:
  `Math.round x = ⌊x + 1/2⌋`; it is embedded as `jround`.
* `Math.sqrt` composed with `Math.round`/`Math.max` only occurs in the
  dimension computation; since `√` is monotone,
  `Math.round (Math.max (√a) (√b)) = roundSqrt (max a b)` where `roundSqrt`
  is a computable rounding of the square root of a rational (the bridge to
  `Real.sqrt` is proved below, `roundSqrt_spec`).
-/

/-- A 2-D point, `interface Point { x: number; y: number }` of the source. -/
structure Point where
  x : ℚ
  y : ℚ
deriving DecidableEq

/-- An RGBA pixel (one entry of the `Uint8ClampedArray` rasters). -/
structure Pixel where
  r : ℕ
  g : ℕ
  b : ℕ
  a : ℕ
deriving DecidableEq

/-- The opaque-white pre-fill `data[i] = 255; ...` (lines 141-144). -/
def whitePixel : Pixel := ⟨255, 255, 255, 255⟩

/-- JavaScript `Math.round` on an exact value: round to nearest, ties up. -/
def jround (q : ℚ) : ℤ := ⌊q + 1 / 2⌋

/-- Squared Euclidean distance; the source's
`dist = (p1, p2) => Math.sqrt((p2.x-p1.x)^2 + (p2.y-p1.y)^2)` (line 13) is
`Real.sqrt` of this. -/
def distSq (p1 p2 : Point) : ℚ := (p2.x - p1.x) ^ 2 + (p2.y - p1.y) ^ 2

/-- `Math.round (Math.sqrt q)` as a computable function of the radicand
`q : ℚ`: the nearest integer to `√q` (ties rounded up).
`roundSqrt_spec` below proves it equal to `⌊√q + 1/2⌋`. -/
def roundSqrt (q : ℚ) : ℕ := (Nat.sqrt (⌊4 * q⌋).toNat + 1) / 2

/-- `getDefaultCorners` (lines 16-25).  The literal `0.2` is the exact
one-fifth in this idealisation.  Order: TL, TR, BR, BL. -/
def getDefaultCorners (width height : ℚ) : Fin 4 → Point :=
  let padX := width * (1 / 5)
  let padY := height * (1 / 5)
  ![⟨padX, padY⟩, ⟨width - padX, padY⟩, ⟨width - padX, height - padY⟩, ⟨padX, height - padY⟩]

section GaussianElimination

variable {K : Type} [LinearOrderedField K] {n : ℕ}

/-- The pivot search of `solveMatrix` (lines 31-38): scan rows
`k = i+1, …, n-1` keeping the row with the largest `|A[k][i]|`
(`maxEl`/`maxRow`, strict `>` to update). -/
def pivotRow (A : Matrix (Fin n) (Fin n) K) (i : Fin n) : Fin n :=
  ((List.finRange n).drop (i.val + 1)).foldl (fun r k => if |A r i| < |A k i| then k else r) i

/-- The row swap of `solveMatrix` (lines 40-44): entries of rows `i` and `m`
are exchanged only in columns `k = i, …, n-1`. -/
def swapRowsFrom {α : Type} (A : Fin n → Fin n → α) (i m : Fin n) : Fin n → Fin n → α :=
  fun r c => if i ≤ c then (if r = i then A m c else if r = m then A i c else A r c) else A r c

/-- Full-row swap (all columns); used to state the equivalence part of
claim C10. -/
def swapRowsFull {α : Type} (A : Fin n → Fin n → α) (i m : Fin n) : Fin n → Fin n → α :=
  fun r c => if r = i then A m c else if r = m then A i c else A r c

/-- The swap of the right-hand side entries `B[i] ↔ B[maxRow]` (lines 45-47). -/
def swapB {α : Type} (B : Fin n → α) (i m : Fin n) : Fin n → α :=
  fun r => if r = i then B m else if r = m then B i else B r

/-- The elimination loop of `solveMatrix` (lines 49-59): for every row
`k > i`, with `c = -A[k][i] / A[i][i]`, set `A[k][i] = 0`, add `c * A[i][j]`
to `A[k][j]` for `j > i`, and add `c * B[i]` to `B[k]`.  Each iteration of
the source's `k`-loop writes only row `k` and reads only rows `k` (before
writing) and `i`, so the loop is embedded as a simultaneous update. -/
def elimBelow (A : Matrix (Fin n) (Fin n) K) (B : Fin n → K) (i : Fin n) :
    Matrix (Fin n) (Fin n) K × (Fin n → K) :=
  (Matrix.of fun k c =>
      if i < k ∧ i ≤ c then (if c = i then 0 else A k c + -(A k i) / A i i * A i c)
      else A k c,
   fun k => if i < k then B k + -(A k i) / A i i * B i else B k)

/-- One iteration of the outer `i`-loop of `solveMatrix` (lines 30-60). -/
def geStep (st : Matrix (Fin n) (Fin n) K × (Fin n → K)) (i : Fin n) :
    Matrix (Fin n) (Fin n) K × (Fin n → K) :=
  elimBelow (Matrix.of (swapRowsFrom st.1 i (pivotRow st.1 i)))
    (swapB st.2 i (pivotRow st.1 i)) i

/-- The state after the first `t` iterations of the outer loop. -/
def geAux (st : Matrix (Fin n) (Fin n) K × (Fin n → K)) : ℕ → Matrix (Fin n) (Fin n) K × (Fin n → K)
  | 0 => st
  | t + 1 => if h : t < n then geStep (geAux st t) ⟨t, h⟩ else geAux st t

/-- The full forward-elimination phase (the `i`-loop runs `i = 0, …, n-1`). -/
def geForward (st : Matrix (Fin n) (Fin n) K × (Fin n → K)) :
    Matrix (Fin n) (Fin n) K × (Fin n → K) :=
  geAux st n

/-- `geStep` with the full-row swap instead of the columns-from-`i` swap;
reference implementation for claim C10. -/
def geStepFull (st : Matrix (Fin n) (Fin n) K × (Fin n → K)) (i : Fin n) :
    Matrix (Fin n) (Fin n) K × (Fin n → K) :=
  elimBelow (Matrix.of (swapRowsFull st.1 i (pivotRow st.1 i)))
    (swapB st.2 i (pivotRow st.1 i)) i

/-- Forward elimination with full-row swaps, for claim C10. -/
def geAuxFull (st : Matrix (Fin n) (Fin n) K × (Fin n → K)) :
    ℕ → Matrix (Fin n) (Fin n) K × (Fin n → K)
  | 0 => st
  | t + 1 => if h : t < n then geStepFull (geAuxFull st t) ⟨t, h⟩ else geAuxFull st t

/-- Forward elimination with full-row swaps, for claim C10. -/
def geForwardFull (st : Matrix (Fin n) (Fin n) K × (Fin n → K)) :
    Matrix (Fin n) (Fin n) K × (Fin n → K) :=
  geAuxFull st n

/-- Back substitution (lines 62-69):
`x[i] = (B[i] - Σ_{j>i} A[i][j]·x[j]) / A[i][i]`, computed downwards from
`i = n-1`.  The source stores the already-computed `x[j]`; here they are
recomputed (the recursion is bounded by the fuel argument, instantiated
at `n`). -/
def backSub (A : Matrix (Fin n) (Fin n) K) (B : Fin n → K) : ℕ → Fin n → K
  | 0, _ => 0
  | fuel + 1, i =>
    (B i - ∑ j ∈ Finset.univ.filter (fun j => i < j), A i j * backSub A B fuel j) / A i i

/-- `solveMatrix` (lines 28-71): Gaussian elimination with partial pivoting
followed by back substitution. -/
def solveMatrix (A : Matrix (Fin n) (Fin n) K) (B : Fin n → K) : Fin n → K :=
  fun i => backSub (geForward (A, B)).1 (geForward (A, B)).2 n i

end GaussianElimination

section WarpPipeline

/-- The coefficient rows pushed for correspondence `i` (lines 112-122):
row `2i` is `[dx, dy, 1, 0, 0, 0, -dx·sx, -dy·sx]`,
row `2i+1` is `[0, 0, 0, dx, dy, 1, -dx·sy, -dy·sy]`. -/
def homSysA (sp dp : Fin 4 → Point) : Matrix (Fin 8) (Fin 8) ℚ :=
  Matrix.of fun r =>
    let i : Fin 4 := ⟨r.val / 2, by have := r.isLt; omega⟩
    let s := sp i
    let d := dp i
    if r.val % 2 = 0 then ![d.x, d.y, 1, 0, 0, 0, -d.x * s.x, -d.y * s.x]
    else ![0, 0, 0, d.x, d.y, 1, -d.x * s.y, -d.y * s.y]

/-- The right-hand sides pushed for correspondence `i` (lines 120-121):
`sx` for row `2i` and `sy` for row `2i+1`. -/
def homSysB (sp : Fin 4 → Point) : Fin 8 → ℚ :=
  fun r =>
    let i : Fin 4 := ⟨r.val / 2, by have := r.isLt; omega⟩
    if r.val % 2 = 0 then (sp i).x else (sp i).y

/-- The output dimensions (lines 86-92):
`maxWidth  = round (max (dist p0 p1) (dist p3 p2))`,
`maxHeight = round (max (dist p0 p3) (dist p1 p2))`;
`round (max (√a) (√b)) = roundSqrt (max a b)` by monotonicity of `√`. -/
def warpDims (pts : Fin 4 → Point) : ℕ × ℕ :=
  (roundSqrt (max (distSq (pts 0) (pts 1)) (distSq (pts 3) (pts 2))),
   roundSqrt (max (distSq (pts 0) (pts 3)) (distSq (pts 1) (pts 2))))

/-- The destination corners (lines 102-107):
`(0,0), (maxWidth,0), (maxWidth,maxHeight), (0,maxHeight)`. -/
def warpDst (pts : Fin 4 → Point) : Fin 4 → Point :=
  ![⟨0, 0⟩, ⟨(warpDims pts).1, 0⟩, ⟨(warpDims pts).1, (warpDims pts).2⟩, ⟨0, (warpDims pts).2⟩]

/-- The homography coefficients `H = solveMatrix A B` (line 124). -/
def warpH (pts : Fin 4 → Point) : Fin 8 → ℚ :=
  solveMatrix (homSysA pts (warpDst pts)) (homSysB pts)

/-- The body of the pixel loop (lines 146-165) as a function of the
destination pixel `(x, y)`:
`denom = H6·x + H7·y + 1`, `u = (H0·x + H1·y + H2)/denom`,
`v = (H3·x + H4·y + H5)/denom`, `srcX = round u`, `srcY = round v`;
copy the source pixel when `0 ≤ srcX < srcW ∧ 0 ≤ srcY < srcH`, keep the
pre-filled white otherwise. -/
def warpPixel (H : Fin 8 → ℚ) (srcW srcH : ℕ) (src : ℕ → ℕ → Pixel) (x y : ℕ) : Pixel :=
  let denom := H 6 * x + H 7 * y + 1
  let u := (H 0 * x + H 1 * y + H 2) / denom
  let v := (H 3 * x + H 4 * y + H 5) / denom
  let srcX := jround u
  let srcY := jround v
  if 0 ≤ srcX ∧ srcX < (srcW : ℤ) ∧ 0 ≤ srcY ∧ srcY < (srcH : ℤ) then
    src srcX.toNat srcY.toNat
  else whitePixel

/-- The result of `warpPerspective`: output dimensions, solved homography
coefficients, and the output raster as a pixel function. -/
structure WarpResult where
  maxWidth : ℕ
  maxHeight : ℕ
  H : Fin 8 → ℚ
  out : ℕ → ℕ → Pixel

/-- `warpPerspective` (lines 77-173), with the image decoding, canvas
plumbing and JPEG re-encoding abstracted away: the source raster is
`(srcW, srcH, src)` and the four user points are `pts`. -/
def warpPerspective (srcW srcH : ℕ) (src : ℕ → ℕ → Pixel) (pts : Fin 4 → Point) : WarpResult :=
  { maxWidth := (warpDims pts).1
    maxHeight := (warpDims pts).2
    H := warpH pts
    out := fun x y => warpPixel (warpH pts) srcW srcH src x y }

end WarpPipeline

section ArithBridges

/-- Evaluation rule for `Nat.sqrt` at concrete arguments. -/
theorem natSqrt_eval {m s : ℕ} (h1 : s * s ≤ m) (h2 : m < (s + 1) * (s + 1)) :
    Nat.sqrt m = s :=
  (Nat.eq_sqrt.mpr ⟨h1, h2⟩).symm

/-- `roundSqrt` computes `Math.round (Math.sqrt q)`:
it equals `⌊√q + 1/2⌋` for every nonnegative rational radicand. -/
theorem roundSqrt_spec (q : ℚ) (hq : 0 ≤ q) :
    (roundSqrt q : ℤ) = ⌊Real.sqrt (q : ℝ) + 1 / 2⌋ := by
  have h4q : (0 : ℚ) ≤ 4 * q := by linarith
  have hfl : (0 : ℤ) ≤ ⌊(4 : ℚ) * q⌋ := Int.floor_nonneg.mpr h4q
  set m : ℕ := (⌊(4 : ℚ) * q⌋).toNat with hm
  have hmle : (m : ℚ) ≤ 4 * q := by
    have h : ((m : ℤ) : ℚ) ≤ 4 * q := by
      rw [hm, Int.toNat_of_nonneg hfl]
      exact Int.floor_le _
    exact_mod_cast h
  have hmlt : 4 * q < (m : ℚ) + 1 := by
    have h : 4 * q < ((m : ℤ) : ℚ) + 1 := by
      rw [hm, Int.toNat_of_nonneg hfl]
      exact Int.lt_floor_add_one _
    exact_mod_cast h
  set s : ℕ := Nat.sqrt m with hs
  have hs1 : (s : ℚ) * s ≤ 4 * q := le_trans (by exact_mod_cast Nat.sqrt_le m) hmle
  have hs2 : (m : ℕ) < (s + 1) * (s + 1) := Nat.lt_succ_sqrt m
  have hrs : roundSqrt q = (s + 1) / 2 := by simp only [roundSqrt, ← hm, ← hs]
  set n : ℕ := (s + 1) / 2 with hn
  rw [hrs]
  symm
  have hqR : (0 : ℝ) ≤ (q : ℝ) := by exact_mod_cast hq
  rw [Int.floor_eq_iff]
  constructor
  · -- lower bound : (n : ℝ) ≤ √q + 1/2
    rcases Nat.eq_zero_or_pos n with h0 | hpos
    · have := Real.sqrt_nonneg (q : ℝ)
      simp only [h0, Nat.cast_zero, Int.cast_natCast]
      push_cast
      linarith
    · have hle : 2 * n - 1 ≤ s := by omega
      have htR : ((2 * n - 1 : ℕ) : ℝ) = 2 * (n : ℝ) - 1 := by
        push_cast [Nat.cast_sub (by omega : 1 ≤ 2 * n)]
        ring
      have hsR : (s : ℝ) * s ≤ 4 * (q : ℝ) := by exact_mod_cast hs1
      have h1R : ((2 * n - 1 : ℕ) : ℝ) ≤ (s : ℝ) := by exact_mod_cast hle
      have hx0 : (0 : ℝ) ≤ (2 * (n : ℝ) - 1) / 2 := by
        have : (1 : ℝ) ≤ (n : ℝ) := by exact_mod_cast hpos
        linarith
      have hsq : ((2 * (n : ℝ) - 1) / 2) ^ 2 ≤ (q : ℝ) := by nlinarith
      have hlsq := (Real.le_sqrt hx0 hqR).mpr hsq
      push_cast
      linarith
  · -- upper bound : √q + 1/2 < n + 1
    have hsn : s ≤ 2 * n := by omega
    have h1R : 4 * (q : ℝ) < (m : ℝ) + 1 := by exact_mod_cast hmlt
    have h2R : ((m : ℝ) + 1) ≤ ((s : ℝ) + 1) * ((s : ℝ) + 1) := by
      exact_mod_cast Nat.succ_le_of_lt hs2
    have h3R : (s : ℝ) + 1 ≤ 2 * (n : ℝ) + 1 := by exact_mod_cast Nat.succ_le_succ hsn
    have hs0 : (0 : ℝ) ≤ (s : ℝ) + 1 := by positivity
    have hup : (q : ℝ) < ((n : ℝ) + 1 / 2) ^ 2 := by nlinarith
    have := (Real.sqrt_lt' (by positivity : (0 : ℝ) < (n : ℝ) + 1 / 2)).mpr hup
    push_cast
    linarith

end ArithBridges

section JNumDef

/-- JavaScript `number` values as seen by the solver on singular inputs:
IEEE special values `NaN`, `+∞`, `-∞`, plus exact finite values.
Finite arithmetic is exact (no rounding); the special-value rules are the
IEEE-754 ones used by JavaScript. -/
inductive JNum where
  | nan : JNum
  | pinf : JNum
  | ninf : JNum
  | fin : ℚ → JNum
deriving DecidableEq

namespace JNum

/-- IEEE addition. -/
def add : JNum → JNum → JNum
  | nan, _ => nan
  | _, nan => nan
  | pinf, ninf => nan
  | pinf, _ => pinf
  | ninf, pinf => nan
  | ninf, _ => ninf
  | fin _, pinf => pinf
  | fin _, ninf => ninf
  | fin a, fin b => fin (a + b)

/-- IEEE negation. -/
def neg : JNum → JNum
  | nan => nan
  | pinf => ninf
  | ninf => pinf
  | fin a => fin (-a)

/-- IEEE multiplication (`±∞ · 0 = NaN`). -/
def mul : JNum → JNum → JNum
  | nan, _ => nan
  | _, nan => nan
  | pinf, pinf => pinf
  | pinf, ninf => ninf
  | ninf, pinf => ninf
  | ninf, ninf => pinf
  | pinf, fin b => if b = 0 then nan else if 0 < b then pinf else ninf
  | ninf, fin b => if b = 0 then nan else if 0 < b then ninf else pinf
  | fin a, pinf => if a = 0 then nan else if 0 < a then pinf else ninf
  | fin a, ninf => if a = 0 then nan else if 0 < a then ninf else pinf
  | fin a, fin b => fin (a * b)

/-- IEEE division (`x / 0` with `x ≠ 0` gives `±∞` — the zero here is the
JavaScript `+0` — and `0 / 0 = NaN`, `±∞ / ±∞ = NaN`, finite`/±∞ = 0`). -/
def div : JNum → JNum → JNum
  | nan, _ => nan
  | _, nan => nan
  | pinf, pinf => nan
  | pinf, ninf => nan
  | ninf, pinf => nan
  | ninf, ninf => nan
  | pinf, fin b => if 0 ≤ b then pinf else ninf
  | ninf, fin b => if 0 ≤ b then ninf else pinf
  | fin _, pinf => fin 0
  | fin _, ninf => fin 0
  | fin a, fin b =>
    if b = 0 then (if a = 0 then nan else if 0 < a then pinf else ninf) else fin (a / b)

/-- IEEE subtraction. -/
def sub (a b : JNum) : JNum := add a (neg b)

/-- `Math.abs`. -/
def abs : JNum → JNum
  | nan => nan
  | pinf => pinf
  | ninf => pinf
  | fin a => fin |a|

/-- The JavaScript `>` comparison: any comparison with `NaN` is `false`. -/
def gtJ : JNum → JNum → Bool
  | nan, _ => false
  | _, nan => false
  | pinf, pinf => false
  | pinf, _ => true
  | ninf, _ => false
  | fin _, pinf => false
  | fin _, ninf => true
  | fin a, fin b => decide (b < a)

/-- The JavaScript `>=` comparison: any comparison with `NaN` is `false`. -/
def geJ : JNum → JNum → Bool
  | nan, _ => false
  | _, nan => false
  | pinf, _ => true
  | ninf, ninf => true
  | ninf, _ => false
  | fin _, pinf => false
  | fin _, ninf => true
  | fin a, fin b => decide (b ≤ a)

/-- `Math.round` extended to special values (`Math.round NaN = NaN`,
`Math.round (±∞) = ±∞`). -/
def rnd : JNum → JNum
  | nan => nan
  | pinf => pinf
  | ninf => ninf
  | fin a => fin (jround a : ℤ)

/-- Whether the value is finite (neither `NaN` nor `±∞`). -/
def isFinite : JNum → Bool
  | fin _ => true
  | _ => false

instance : Zero JNum := ⟨fin 0⟩

theorem add_assocJ : ∀ a b c : JNum, add (add a b) c = add a (add b c) := by
  intro a b c
  rcases a with _ | _ | _ | a <;> rcases b with _ | _ | _ | b <;>
    rcases c with _ | _ | _ | c <;> simp [add] <;> ring

theorem add_commJ : ∀ a b : JNum, add a b = add b a := by
  intro a b
  rcases a with _ | _ | _ | a <;> rcases b with _ | _ | _ | b <;> simp [add] <;> ring

theorem zero_addJ : ∀ a : JNum, add (fin 0) a = a := by
  intro a
  rcases a with _ | _ | _ | a <;> simp [add]

theorem add_zeroJ : ∀ a : JNum, add a (fin 0) = a := by
  intro a
  rcases a with _ | _ | _ | a <;> simp [add]

/-- `JNum` under IEEE addition is a commutative monoid (the special values
alone introduce no non-associativity; IEEE non-associativity comes from
rounding, which this model does not perform).  This instance is used only
to write the back-substitution accumulator as a finite sum. -/
instance : Add JNum := ⟨add⟩

instance : AddCommMonoid JNum where
  add_assoc := add_assocJ
  zero_add := zero_addJ
  add_zero := add_zeroJ
  add_comm := add_commJ
  nsmul := nsmulRec
  nsmul_zero := fun _ => rfl
  nsmul_succ := fun _ _ => rfl

theorem add_def (a b : JNum) : a + b = add a b := rfl

theorem zero_def : (0 : JNum) = fin 0 := rfl

end JNum

end JNumDef

section JNumSolver

open JNum

variable {n : ℕ}

/-- The pivot search of `solveMatrix` (lines 31-38) under IEEE semantics:
`Math.abs(A[k][i]) > maxEl` never holds when either side is `NaN`. -/
def pivotRowJ (A : Fin n → Fin n → JNum) (i : Fin n) : Fin n :=
  ((List.finRange n).drop (i.val + 1)).foldl
    (fun r k => if gtJ (JNum.abs (A k i)) (JNum.abs (A r i)) then k else r) i

/-- The elimination loop of `solveMatrix` (lines 49-59) under IEEE
semantics; same shape as `elimBelow`. -/
def elimBelowJ (A : Fin n → Fin n → JNum) (B : Fin n → JNum) (i : Fin n) :
    (Fin n → Fin n → JNum) × (Fin n → JNum) :=
  (fun k c =>
      if i < k ∧ i ≤ c then
        (if c = i then fin 0 else A k c + mul (neg (div (A k i) (A i i))) (A i c))
      else A k c,
   fun k => if i < k then B k + mul (neg (div (A k i) (A i i))) (B i) else B k)

/-- One iteration of the outer loop of `solveMatrix` under IEEE semantics. -/
def geStepJ (st : (Fin n → Fin n → JNum) × (Fin n → JNum)) (i : Fin n) :
    (Fin n → Fin n → JNum) × (Fin n → JNum) :=
  elimBelowJ (swapRowsFrom st.1 i (pivotRowJ st.1 i)) (swapB st.2 i (pivotRowJ st.1 i)) i

/-- The state after the first `t` outer-loop iterations (IEEE semantics). -/
def geAuxJ (st : (Fin n → Fin n → JNum) × (Fin n → JNum)) :
    ℕ → (Fin n → Fin n → JNum) × (Fin n → JNum)
  | 0 => st
  | t + 1 => if h : t < n then geStepJ (geAuxJ st t) ⟨t, h⟩ else geAuxJ st t

/-- Forward elimination (IEEE semantics). -/
def geForwardJ (st : (Fin n → Fin n → JNum) × (Fin n → JNum)) :
    (Fin n → Fin n → JNum) × (Fin n → JNum) :=
  geAuxJ st n

/-- Back substitution (lines 62-69) under IEEE semantics. -/
def backSubJ (A : Fin n → Fin n → JNum) (B : Fin n → JNum) : ℕ → Fin n → JNum
  | 0, _ => fin 0
  | fuel + 1, i =>
    div (sub (B i) (∑ j ∈ Finset.univ.filter (fun j => i < j), mul (A i j) (backSubJ A B fuel j)))
      (A i i)

/-- `solveMatrix` (lines 28-71) under IEEE semantics. -/
def solveMatrixJ (A : Fin n → Fin n → JNum) (B : Fin n → JNum) : Fin n → JNum :=
  fun i => backSubJ (geForwardJ (A, B)).1 (geForwardJ (A, B)).2 n i

/-- The pivot value actually divided by at step `t`: entry `(t, t)` right
after the swap of step `t`.  (Rows `≤ t` are never touched after step `t`,
so this is also entry `(t, t)` of the state after step `t`.) -/
def pivotValJ (A : Fin n → Fin n → JNum) (B : Fin n → JNum) (t : Fin n) : JNum :=
  (geAuxJ (A, B) (t.val + 1)).1 t t

/-- The homography system of `warpPerspective` injected into IEEE values
(the system construction itself, lines 102-122, involves no division and
stays finite). -/
def homSysAJ (pts : Fin 4 → Point) : Fin 8 → Fin 8 → JNum :=
  fun r c => fin (homSysA pts (warpDst pts) r c)

/-- The right-hand side of the homography system as IEEE values. -/
def homSysBJ (pts : Fin 4 → Point) : Fin 8 → JNum :=
  fun r => fin (homSysB pts r)

/-- The solved homography coefficients under IEEE semantics (line 124). -/
def warpHJ (pts : Fin 4 → Point) : Fin 8 → JNum :=
  solveMatrixJ (homSysAJ pts) (homSysBJ pts)

/-- Index used to sample the source raster when the bounds test passes
(the test only passes on finite integer values). -/
def jidx : JNum → ℕ
  | fin a => (⌊a⌋).toNat
  | _ => 0

/-- The body of the pixel loop (lines 146-165) under IEEE semantics. -/
def warpPixelJ (H : Fin 8 → JNum) (srcW srcH : ℕ) (src : ℕ → ℕ → Pixel) (x y : ℕ) : Pixel :=
  let denom := mul (H 6) (fin x) + mul (H 7) (fin y) + fin 1
  let u := div (mul (H 0) (fin x) + mul (H 1) (fin y) + H 2) denom
  let v := div (mul (H 3) (fin x) + mul (H 4) (fin y) + H 5) denom
  let sX := rnd u
  let sY := rnd v
  if geJ sX (fin 0) && gtJ (fin srcW) sX && geJ sY (fin 0) && gtJ (fin srcH) sY then
    src (jidx sX) (jidx sY)
  else whitePixel

/-- The result of `warpPerspective` under IEEE semantics. -/
structure WarpResultJ where
  maxWidth : ℕ
  maxHeight : ℕ
  H : Fin 8 → JNum
  out : ℕ → ℕ → Pixel

/-- `warpPerspective` (lines 77-173) under IEEE semantics: the dimension
computation (lines 86-92) involves no division and is unaffected by the
special values, so it is shared with the exact pipeline. -/
def warpPerspectiveJ (srcW srcH : ℕ) (src : ℕ → ℕ → Pixel) (pts : Fin 4 → Point) : WarpResultJ :=
  { maxWidth := (warpDims pts).1
    maxHeight := (warpDims pts).2
    H := warpHJ pts
    out := fun x y => warpPixelJ (warpHJ pts) srcW srcH src x y }

end JNumSolver

section EasyClaims

/-- **C9.** For every width and height, `getDefaultCorners width height`
returns exactly `(0.2·w, 0.2·h), (w - 0.2·w, 0.2·h), (w - 0.2·w, h - 0.2·h),
(0.2·w, h - 0.2·h)` in the order TL, TR, BR, BL — a quadrilateral inset by
20 % of width/height on each side. -/
theorem C9_default_corners (width height : ℚ) :
    getDefaultCorners width height =
      ![⟨1 / 5 * width, 1 / 5 * height⟩,
        ⟨width - 1 / 5 * width, 1 / 5 * height⟩,
        ⟨width - 1 / 5 * width, height - 1 / 5 * height⟩,
        ⟨1 / 5 * width, height - 1 / 5 * height⟩] := by
  funext i
  fin_cases i <;> simp [getDefaultCorners, Point.mk.injEq] <;> constructor <;> ring

/-- **C4.** For each correspondence `i` — source `(sx, sy)`, destination
`(dx, dy)` — the 8×8 system handed to the solver consists exactly of the
rows `[dx, dy, 1, 0, 0, 0, -dx·sx, -dy·sx] → sx` (row `2i`) and
`[0, 0, 0, dx, dy, 1, -dx·sy, -dy·sy] → sy` (row `2i+1`), the destination
points being `(0,0), (maxWidth,0), (maxWidth,maxHeight), (0,maxHeight)` in
that order. -/
theorem C4_system_rows (srcW srcH : ℕ) (src : ℕ → ℕ → Pixel) (pts : Fin 4 → Point) (i : Fin 4) :
    let res := warpPerspective srcW srcH src pts
    let dst : Fin 4 → Point :=
      ![⟨0, 0⟩, ⟨res.maxWidth, 0⟩, ⟨res.maxWidth, res.maxHeight⟩, ⟨0, res.maxHeight⟩]
    let sx := (pts i).x
    let sy := (pts i).y
    let dx := (dst i).x
    let dy := (dst i).y
    warpDst pts = dst ∧
    res.H = solveMatrix (homSysA pts (warpDst pts)) (homSysB pts) ∧
    homSysA pts (warpDst pts) ⟨2 * i.val, by have := i.isLt; omega⟩ =
      ![dx, dy, 1, 0, 0, 0, -dx * sx, -dy * sx] ∧
    homSysB pts ⟨2 * i.val, by have := i.isLt; omega⟩ = sx ∧
    homSysA pts (warpDst pts) ⟨2 * i.val + 1, by have := i.isLt; omega⟩ =
      ![0, 0, 0, dx, dy, 1, -dx * sy, -dy * sy] ∧
    homSysB pts ⟨2 * i.val + 1, by have := i.isLt; omega⟩ = sy := by
  refine ⟨rfl, rfl, ?_, ?_, ?_, ?_⟩
  · funext c
    fin_cases i <;> fin_cases c <;>
      norm_num [homSysA, warpDst, warpPerspective]
  · fin_cases i <;> norm_num [homSysB, warpDst, warpPerspective]
  · funext c
    fin_cases i <;> fin_cases c <;>
      norm_num [homSysA, warpDst, warpPerspective]
  · fin_cases i <;> norm_num [homSysB, warpDst, warpPerspective]

/-- **C1.** For every destination pixel `(x, y)` with `x < maxWidth` and
`y < maxHeight`, `warpPerspective` computes
`denom = h6·x + h7·y + 1`, `u = (h0·x + h1·y + h2)/denom`,
`v = (h3·x + h4·y + h5)/denom`, rounds `u, v` to the nearest integers
`srcX, srcY`, and then: if `0 ≤ srcX < srcW` and `0 ≤ srcY < srcH` the
destination pixel equals the source pixel at `(srcX, srcY)` in all four
RGBA channels, otherwise it keeps the pre-filled opaque white
`(255, 255, 255, 255)`. -/
theorem C1_pixel_mapping (srcW srcH : ℕ) (src : ℕ → ℕ → Pixel) (pts : Fin 4 → Point)
    (x y : ℕ) (hx : x < (warpPerspective srcW srcH src pts).maxWidth)
    (hy : y < (warpPerspective srcW srcH src pts).maxHeight) :
    let res := warpPerspective srcW srcH src pts
    let denom := res.H 6 * x + res.H 7 * y + 1
    let u := (res.H 0 * x + res.H 1 * y + res.H 2) / denom
    let v := (res.H 3 * x + res.H 4 * y + res.H 5) / denom
    let srcX := jround u
    let srcY := jround v
    ((0 ≤ srcX ∧ srcX < (srcW : ℤ) ∧ 0 ≤ srcY ∧ srcY < (srcH : ℤ)) →
        res.out x y = src srcX.toNat srcY.toNat) ∧
    (¬(0 ≤ srcX ∧ srcX < (srcW : ℤ) ∧ 0 ≤ srcY ∧ srcY < (srcH : ℤ)) →
        res.out x y = whitePixel) := by
  refine ⟨fun h => ?_, fun h => ?_⟩
  · show warpPixel (warpH pts) srcW srcH src x y = _
    simp only [warpPixel, warpPerspective] at h ⊢
    exact if_pos h
  · show warpPixel (warpH pts) srcW srcH src x y = _
    simp only [warpPixel, warpPerspective] at h ⊢
    exact if_neg h

/-- **C2.** For every quadrilateral `(p0, p1, p2, p3)` given to
`warpPerspective`, the output raster dimensions are
`maxWidth  = round (max (dist p0 p1) (dist p3 p2))` and
`maxHeight = round (max (dist p0 p3) (dist p1 p2))` where `dist` is the
Euclidean distance and `round x = ⌊x + 1/2⌋` is rounding to the nearest
integer (ties up, as `Math.round`). -/
theorem distSq_nonneg (p q : Point) : 0 ≤ distSq p q := by
  rw [distSq]; positivity

theorem C2_output_dimensions (srcW srcH : ℕ) (src : ℕ → ℕ → Pixel) (pts : Fin 4 → Point) :
    ((warpPerspective srcW srcH src pts).maxWidth : ℤ) =
      ⌊max (Real.sqrt ((((pts 1).x : ℝ) - ((pts 0).x : ℝ)) ^ 2 +
                       (((pts 1).y : ℝ) - ((pts 0).y : ℝ)) ^ 2))
           (Real.sqrt ((((pts 2).x : ℝ) - ((pts 3).x : ℝ)) ^ 2 +
                       (((pts 2).y : ℝ) - ((pts 3).y : ℝ)) ^ 2)) + 1 / 2⌋ ∧
    ((warpPerspective srcW srcH src pts).maxHeight : ℤ) =
      ⌊max (Real.sqrt ((((pts 3).x : ℝ) - ((pts 0).x : ℝ)) ^ 2 +
                       (((pts 3).y : ℝ) - ((pts 0).y : ℝ)) ^ 2))
           (Real.sqrt ((((pts 2).x : ℝ) - ((pts 1).x : ℝ)) ^ 2 +
                       (((pts 2).y : ℝ) - ((pts 1).y : ℝ)) ^ 2)) + 1 / 2⌋ := by
  have sqrtMax : ∀ a b : ℚ, Real.sqrt ((max a b : ℚ) : ℝ) =
      max (Real.sqrt (a : ℝ)) (Real.sqrt (b : ℝ)) := by
    intro a b
    rw [Rat.cast_max]
    exact Monotone.map_max (fun x y h => Real.sqrt_le_sqrt h)
  have distCast : ∀ p q : Point, ((distSq p q : ℚ) : ℝ) =
      ((q.x : ℝ) - (p.x : ℝ)) ^ 2 + ((q.y : ℝ) - (p.y : ℝ)) ^ 2 := by
    intro p q
    rw [distSq]
    push_cast
    ring
  constructor
  · show ((roundSqrt (max (distSq (pts 0) (pts 1)) (distSq (pts 3) (pts 2))) : ℤ) = _)
    rw [roundSqrt_spec _ (le_max_of_le_left (distSq_nonneg _ _)), sqrtMax, distCast, distCast]
  · show ((roundSqrt (max (distSq (pts 0) (pts 3)) (distSq (pts 1) (pts 2))) : ℤ) = _)
    rw [roundSqrt_spec _ (le_max_of_le_left (distSq_nonneg _ _)), sqrtMax, distCast, distCast]

end EasyClaims

section RectQuad

/-- The axis-aligned quadrilateral covering a full `W × H` image:
`(0,0), (W,0), (W,H), (0,H)`. -/
def rectCorners (W H : ℕ) : Fin 4 → Point :=
  ![⟨0, 0⟩, ⟨W, 0⟩, ⟨W, H⟩, ⟨0, H⟩]

theorem roundSqrt_sq_nat (W : ℕ) : roundSqrt ((W : ℚ) ^ 2) = W := by
  have h4 : (4 : ℚ) * (W : ℚ) ^ 2 = ((4 * W ^ 2 : ℕ) : ℚ) := by push_cast; ring
  rw [roundSqrt, h4, Int.floor_natCast, Int.toNat_natCast,
    show 4 * W ^ 2 = (2 * W) ^ 2 by ring, Nat.sqrt_eq']
  omega

theorem warpDims_rect (W H : ℕ) : warpDims (rectCorners W H) = (W, H) := by
  have e01 : distSq (rectCorners W H 0) (rectCorners W H 1) = (W : ℚ) ^ 2 := by
    norm_num [rectCorners, distSq]
  have e32 : distSq (rectCorners W H 3) (rectCorners W H 2) = (W : ℚ) ^ 2 := by
    norm_num [rectCorners, distSq]
  have e03 : distSq (rectCorners W H 0) (rectCorners W H 3) = (H : ℚ) ^ 2 := by
    norm_num [rectCorners, distSq]
  have e12 : distSq (rectCorners W H 1) (rectCorners W H 2) = (H : ℚ) ^ 2 := by
    norm_num [rectCorners, distSq]
  rw [warpDims, e01, e32, e03, e12, max_self, max_self, roundSqrt_sq_nat, roundSqrt_sq_nat]

end RectQuad

/-- Witness for C1: a concrete 1×1 source, the unit-square quadrilateral and
destination pixel `(0, 0)`; both bound hypotheses hold there. -/
theorem C1_pixel_mapping_witness :
    0 < (warpPerspective 1 1 (fun _ _ => ⟨9, 9, 9, 255⟩) (rectCorners 1 1)).maxWidth ∧
    0 < (warpPerspective 1 1 (fun _ _ => ⟨9, 9, 9, 255⟩) (rectCorners 1 1)).maxHeight ∧
    (let res := warpPerspective 1 1 (fun _ _ => ⟨9, 9, 9, 255⟩) (rectCorners 1 1)
     let denom := res.H 6 * (0 : ℕ) + res.H 7 * (0 : ℕ) + 1
     let u := (res.H 0 * (0 : ℕ) + res.H 1 * (0 : ℕ) + res.H 2) / denom
     let v := (res.H 3 * (0 : ℕ) + res.H 4 * (0 : ℕ) + res.H 5) / denom
     let srcX := jround u
     let srcY := jround v
     ((0 ≤ srcX ∧ srcX < ((1 : ℕ) : ℤ) ∧ 0 ≤ srcY ∧ srcY < ((1 : ℕ) : ℤ)) →
         res.out 0 0 = (fun _ _ => (⟨9, 9, 9, 255⟩ : Pixel)) srcX.toNat srcY.toNat) ∧
     (¬(0 ≤ srcX ∧ srcX < ((1 : ℕ) : ℤ) ∧ 0 ≤ srcY ∧ srcY < ((1 : ℕ) : ℤ)) →
         res.out 0 0 = whitePixel)) := by
  have h1 : 0 < (warpPerspective 1 1 (fun _ _ => (⟨9, 9, 9, 255⟩ : Pixel)) (rectCorners 1 1)).maxWidth := by
    show 0 < (warpDims (rectCorners 1 1)).1
    rw [warpDims_rect]
    norm_num
  have h2 : 0 < (warpPerspective 1 1 (fun _ _ => (⟨9, 9, 9, 255⟩ : Pixel)) (rectCorners 1 1)).maxHeight := by
    show 0 < (warpDims (rectCorners 1 1)).2
    rw [warpDims_rect]
    norm_num
  exact ⟨h1, h2, C1_pixel_mapping 1 1 (fun _ _ => ⟨9, 9, 9, 255⟩) (rectCorners 1 1) 0 0 h1 h2⟩

section GEFacts

variable {K : Type} [LinearOrderedField K] {n : ℕ}

theorem mem_drop_finRange {m : ℕ} (k : Fin n) :
    k ∈ (List.finRange n).drop m ↔ m ≤ k.val := by
  constructor
  · intro hk
    obtain ⟨j, hj, he⟩ := List.mem_iff_getElem.mp hk
    rw [List.getElem_drop, List.getElem_finRange] at he
    have : m + j = k.val := by
      have := congrArg Fin.val he
      simpa using this
    omega
  · intro h
    have hlen : k.val - m < ((List.finRange n).drop m).length := by
      have := k.isLt
      simp only [List.length_drop, List.length_finRange]
      omega
    refine List.mem_iff_getElem.mpr ⟨k.val - m, hlen, ?_⟩
    rw [List.getElem_drop, List.getElem_finRange]
    apply Fin.ext
    simp
    omega

/-- The pivot-search fold keeps an accumulator from `{a} ∪ l`. -/
theorem pivot_foldl_mem (A : Matrix (Fin n) (Fin n) K) (i : Fin n) :
    ∀ (l : List (Fin n)) (a : Fin n),
      l.foldl (fun r k => if |A r i| < |A k i| then k else r) a = a ∨
      l.foldl (fun r k => if |A r i| < |A k i| then k else r) a ∈ l := by
  intro l
  induction l with
  | nil => intro a; exact Or.inl rfl
  | cons x xs ih =>
    intro a
    simp only [List.foldl_cons]
    rcases ih (if |A a i| < |A x i| then x else a) with h | h
    · rw [h]
      by_cases hc : |A a i| < |A x i|
      · rw [if_pos hc]; exact Or.inr (List.mem_cons_self x xs)
      · rw [if_neg hc]; exact Or.inl rfl
    · exact Or.inr (List.mem_cons_of_mem x h)

/-- The pivot-search fold result dominates the initial accumulator and every
scanned row in absolute value of the pivot column. -/
theorem pivot_foldl_max (A : Matrix (Fin n) (Fin n) K) (i : Fin n) :
    ∀ (l : List (Fin n)) (a : Fin n),
      |A a i| ≤ |A (l.foldl (fun r k => if |A r i| < |A k i| then k else r) a) i| ∧
      ∀ k ∈ l, |A k i| ≤ |A (l.foldl (fun r k => if |A r i| < |A k i| then k else r) a) i| := by
  intro l
  induction l with
  | nil => intro a; exact ⟨le_refl _, by simp⟩
  | cons x xs ih =>
    intro a
    simp only [List.foldl_cons]
    obtain ⟨h1, h2⟩ := ih (if |A a i| < |A x i| then x else a)
    constructor
    · refine le_trans ?_ h1
      by_cases hc : |A a i| < |A x i|
      · rw [if_pos hc]; exact le_of_lt hc
      · rw [if_neg hc]
    · intro k hk
      rcases List.mem_cons.mp hk with rfl | hk
      · refine le_trans ?_ h1
        by_cases hc : |A a i| < |A k i|
        · rw [if_pos hc]
        · rw [if_neg hc]; exact le_of_not_lt hc
      · exact h2 k hk

theorem pivotRow_ge (A : Matrix (Fin n) (Fin n) K) (i : Fin n) : i ≤ pivotRow A i := by
  rcases pivot_foldl_mem A i ((List.finRange n).drop (i.val + 1)) i with h | h
  · rw [pivotRow, h]
  · have := (mem_drop_finRange _).mp h
    rw [pivotRow] at *
    exact le_of_lt (by omega)

theorem abs_le_pivotRow (A : Matrix (Fin n) (Fin n) K) (i : Fin n) :
    ∀ r : Fin n, i ≤ r → |A r i| ≤ |A (pivotRow A i) i| := by
  intro r hr
  obtain ⟨h1, h2⟩ := pivot_foldl_max A i ((List.finRange n).drop (i.val + 1)) i
  rcases eq_or_lt_of_le hr with rfl | hlt
  · exact h1
  · exact h2 r ((mem_drop_finRange r).mpr (by omega))

end GEFacts

section GEFacts2

variable {K : Type} [LinearOrderedField K] {n : ℕ}

theorem geAux_succ (st : Matrix (Fin n) (Fin n) K × (Fin n → K)) {t : ℕ} (ht : t < n) :
    geAux st (t + 1) = geStep (geAux st t) ⟨t, ht⟩ := by
  rw [geAux, dif_pos ht]

theorem geAux_succ_ge (st : Matrix (Fin n) (Fin n) K × (Fin n → K)) {t : ℕ} (ht : ¬ t < n) :
    geAux st (t + 1) = geAux st t := by
  rw [geAux, dif_neg ht]

/-- A `geStep` at index `i` leaves every row `r < i` (of both the matrix and
the right-hand side) unchanged. -/
theorem geStep_row_lt (st : Matrix (Fin n) (Fin n) K × (Fin n → K)) (i : Fin n)
    {r : Fin n} (hr : r < i) :
    (∀ c, (geStep st i).1 r c = st.1 r c) ∧ (geStep st i).2 r = st.2 r := by
  have hm := pivotRow_ge st.1 i
  have hri : r ≠ i := ne_of_lt hr
  have hrm : r ≠ pivotRow st.1 i := ne_of_lt (lt_of_lt_of_le hr hm)
  constructor
  · intro c
    show (elimBelow _ _ i).1 r c = st.1 r c
    rw [elimBelow]
    simp only [Matrix.of_apply]
    rw [if_neg (by simp only [not_and]; intro hi; exact absurd (lt_trans hr hi) (lt_irrefl _) ), swapRowsFrom]
    by_cases hc : i ≤ c
    · rw [if_pos hc, if_neg hri, if_neg hrm]
    · rw [if_neg hc]
  · show (elimBelow _ _ i).2 r = st.2 r
    rw [elimBelow]
    simp only
    rw [if_neg (not_lt.mpr (le_of_lt hr)), swapB, if_neg hri, if_neg hrm]

/-- After step `i`, row `i` of the matrix is the swapped row, and in
particular the diagonal entry `(i, i)` is the selected pivot. -/
theorem geStep_row_eq (st : Matrix (Fin n) (Fin n) K × (Fin n → K)) (i : Fin n) (c : Fin n) :
    (geStep st i).1 i c = swapRowsFrom st.1 i (pivotRow st.1 i) i c := by
  show (elimBelow _ _ i).1 i c = _
  rw [elimBelow]
  simp only [Matrix.of_apply]
  rw [if_neg (by simp only [not_and]; intro hi; exact absurd hi (lt_irrefl _))]

theorem geStep_diag (st : Matrix (Fin n) (Fin n) K × (Fin n → K)) (i : Fin n) :
    (geStep st i).1 i i = st.1 (pivotRow st.1 i) i := by
  rw [geStep_row_eq, swapRowsFrom, if_pos (le_refl i), if_pos rfl]

/-- Rows `< t` are frozen from state `t` on. -/
theorem geAux_freeze (st : Matrix (Fin n) (Fin n) K × (Fin n → K)) {t s : ℕ} (hts : t ≤ s) :
    ∀ r : Fin n, r.val < t →
      (∀ c, (geAux st s).1 r c = (geAux st t).1 r c) ∧ (geAux st s).2 r = (geAux st t).2 r := by
  induction s with
  | zero =>
    intro r hr
    have : t = 0 := Nat.le_zero.mp hts
    subst this
    exact ⟨fun _ => rfl, rfl⟩
  | succ s ih =>
    intro r hr
    rcases Nat.lt_or_ge t (s + 1) with h | h
    · have hts' : t ≤ s := by omega
      by_cases hs : s < n
      · rw [geAux_succ st hs]
        have hrs : r < (⟨s, hs⟩ : Fin n) := by
          show r.val < s
          omega
        obtain ⟨hA, hB⟩ := geStep_row_lt (geAux st s) ⟨s, hs⟩ hrs
        obtain ⟨ihA, ihB⟩ := ih hts' r hr
        exact ⟨fun c => (hA c).trans (ihA c), hB.trans ihB⟩
      · rw [geAux_succ_ge st hs]
        exact ih hts' r hr
    · have : t = s + 1 := by omega
      subst this
      exact ⟨fun _ => rfl, rfl⟩

/-- The zero pattern established by the first `t` elimination steps:
every entry strictly below the diagonal in a column `c < t` is zero. -/
def LowZero (A : Matrix (Fin n) (Fin n) K) (t : ℕ) : Prop :=
  ∀ r c : Fin n, c.val < t → c.val < r.val → A r c = 0

theorem lowZero_geStep {st : Matrix (Fin n) (Fin n) K × (Fin n → K)} {i : Fin n}
    (h : LowZero st.1 i.val) : LowZero (geStep st i).1 (i.val + 1) := by
  intro r c hc hcr
  have hm := pivotRow_ge st.1 i
  show (elimBelow _ _ i).1 r c = 0
  rw [elimBelow]
  simp only [Matrix.of_apply]
  rcases Nat.lt_or_ge c.val i.val with hci | hci
  · -- column strictly before i : untouched by swap and elimination
    rw [if_neg (by rintro ⟨-, hic⟩; exact absurd (lt_of_le_of_lt hic (by exact hci)) (lt_irrefl _))]
    rw [swapRowsFrom, if_neg (not_le.mpr (by exact hci))]
    exact h r c hci hcr
  · -- c = i (since c < i+1) : the forced zero of the elimination
    have hcieq : c = i := Fin.ext (by omega)
    subst hcieq
    have hrc : c < r := by
      show c.val < r.val
      omega
    rw [if_pos ⟨hrc, le_refl _⟩, if_pos rfl]

theorem lowZero_geAux (st : Matrix (Fin n) (Fin n) K × (Fin n → K)) :
    ∀ t, LowZero (geAux st t).1 t := by
  intro t
  induction t with
  | zero => intro r c hc _; omega
  | succ t ih =>
    by_cases ht : t < n
    · rw [geAux_succ st ht]
      exact lowZero_geStep (i := ⟨t, ht⟩) ih
    · rw [geAux_succ_ge st ht]
      intro r c hc hcr
      exact ih r c (by have := c.isLt; omega) hcr

end GEFacts2

section GEFacts3

variable {K : Type} [LinearOrderedField K] {n : ℕ}

/-- Under the invariant, the columns-from-`i` swap of rows `i ≤ m` equals the
full-row swap (the skipped entries are equal zeros). -/
theorem swapRowsFrom_eq_submatrix {A : Matrix (Fin n) (Fin n) K} {i m : Fin n}
    (hLZ : LowZero A i.val) (him : i ≤ m) :
    Matrix.of (swapRowsFrom A i m) = A.submatrix (Equiv.swap i m) id := by
  ext r c
  simp only [Matrix.of_apply, Matrix.submatrix_apply, id_eq]
  rw [swapRowsFrom]
  by_cases hc : i ≤ c
  · rw [if_pos hc]
    by_cases hri : r = i
    · subst hri; rw [if_pos rfl, Equiv.swap_apply_left]
    · rw [if_neg hri]
      by_cases hrm : r = m
      · subst hrm; rw [if_pos rfl, Equiv.swap_apply_right]
      · rw [if_neg hrm, Equiv.swap_apply_of_ne_of_ne hri hrm]
  · rw [if_neg hc]
    have hci : c.val < i.val := not_le.mp hc
    by_cases hri : r = i
    · subst hri
      rw [Equiv.swap_apply_left, hLZ r c hci (by omega),
        hLZ m c hci (by have := Fin.le_iff_val_le_val.mp him; omega)]
    · by_cases hrm : r = m
      · subst hrm
        rw [Equiv.swap_apply_right, hLZ r c hci
            (by have := Fin.le_iff_val_le_val.mp him; omega),
          hLZ i c hci (by omega)]
      · rw [Equiv.swap_apply_of_ne_of_ne hri hrm]

theorem swapB_eq_comp {B : Fin n → K} {i m : Fin n} :
    swapB B i m = fun r => B (Equiv.swap i m r) := by
  funext r
  rw [swapB]
  by_cases hri : r = i
  · subst hri; rw [if_pos rfl, Equiv.swap_apply_left]
  · rw [if_neg hri]
    by_cases hrm : r = m
    · subst hrm; rw [if_pos rfl, Equiv.swap_apply_right]
    · rw [if_neg hrm, Equiv.swap_apply_of_ne_of_ne hri hrm]

theorem det_submatrix_swap_eq_zero_iff (A : Matrix (Fin n) (Fin n) K) (σ : Equiv.Perm (Fin n)) :
    (A.submatrix σ id).det = 0 ↔ A.det = 0 := by
  rw [Matrix.det_permute]
  rcases Int.units_eq_one_or (Equiv.Perm.sign σ) with h | h <;> rw [h] <;> simp

theorem mulVec_submatrix_swap (A : Matrix (Fin n) (Fin n) K) (σ : Equiv.Perm (Fin n))
    (x : Fin n → K) (r : Fin n) :
    (A.submatrix σ id).mulVec x r = A.mulVec x (σ r) := by
  simp [Matrix.mulVec, Matrix.submatrix_apply, Matrix.dotProduct]

theorem mulVec_swap_iff (A : Matrix (Fin n) (Fin n) K) (B : Fin n → K) (σ : Equiv.Perm (Fin n))
    (x : Fin n → K) :
    ((A.submatrix σ id).mulVec x = fun r => B (σ r)) ↔ A.mulVec x = B := by
  constructor
  · intro h
    funext r
    have := congrFun h (σ.symm r)
    rwa [mulVec_submatrix_swap, Equiv.apply_symm_apply] at this
  · intro h
    funext r
    rw [mulVec_submatrix_swap, h]

/-- The elementary matrix performing the simultaneous row eliminations of
step `i` : identity plus the multipliers `-A[k][i]/A[i][i]` in column `i`
below the diagonal. -/
def elimMat (A : Matrix (Fin n) (Fin n) K) (i : Fin n) : Matrix (Fin n) (Fin n) K :=
  Matrix.of fun r c => if r = c then 1 else if c = i ∧ i < r then -(A r i) / A i i else 0

theorem elimMat_tri (A : Matrix (Fin n) (Fin n) K) (i : Fin n) :
    ∀ r c : Fin n, r < c → elimMat A i r c = 0 := by
  intro r c hrc
  rw [elimMat]
  simp only [Matrix.of_apply]
  rw [if_neg (ne_of_lt hrc), if_neg]
  rintro ⟨rfl, hir⟩
  exact absurd (lt_trans hir hrc) (lt_irrefl _)

theorem det_elimMat (A : Matrix (Fin n) (Fin n) K) (i : Fin n) : (elimMat A i).det = 1 := by
  have hblock : (elimMat A i).BlockTriangular OrderDual.toDual := by
    intro r c h
    exact elimMat_tri A i r c h
  rw [Matrix.det_of_lowerTriangular _ hblock]
  have : ∀ j : Fin n, elimMat A i j j = 1 := by
    intro j; rw [elimMat]; simp
  rw [Finset.prod_congr rfl fun j _ => this j]
  simp

theorem elimMat_sum (A : Matrix (Fin n) (Fin n) K) (i k : Fin n) (v : Fin n → K) :
    ∑ j, elimMat A i k j * v j = v k + (if i < k then -(A k i) / A i i * v i else 0) := by
  by_cases hik : i < k
  · have hki : k ≠ i := ne_of_gt hik
    have hpt : ∀ j, elimMat A i k j * v j =
        (if j = k then v k else 0) + (if j = i then -(A k i) / A i i * v i else 0) := by
      intro j
      rw [elimMat]
      simp only [Matrix.of_apply]
      by_cases hjk : j = k
      · subst hjk
        rw [if_pos rfl, if_pos rfl, if_neg hki, one_mul, add_zero]
      · rw [if_neg (fun h => hjk h.symm), if_neg hjk]
        by_cases hji : j = i
        · subst hji
          rw [if_pos ⟨rfl, hik⟩, if_pos rfl, zero_add]
        · rw [if_neg (fun h => hji h.1), if_neg hji, zero_mul, add_zero]
    rw [Finset.sum_congr rfl fun j _ => hpt j, Finset.sum_add_distrib,
      Finset.sum_ite_eq' Finset.univ k (fun _ => v k),
      Finset.sum_ite_eq' Finset.univ i (fun _ => -(A k i) / A i i * v i),
      if_pos (Finset.mem_univ k), if_pos (Finset.mem_univ i), if_pos hik]
  · have hpt : ∀ j, elimMat A i k j * v j = (if j = k then v k else 0) := by
      intro j
      rw [elimMat]
      simp only [Matrix.of_apply]
      by_cases hjk : j = k
      · subst hjk; rw [if_pos rfl, if_pos rfl, one_mul]
      · rw [if_neg (fun h => hjk h.symm), if_neg hjk]
        rw [if_neg, zero_mul]
        rintro ⟨rfl, hlt⟩
        exact hik hlt
    rw [Finset.sum_congr rfl fun j _ => hpt j,
      Finset.sum_ite_eq' Finset.univ k (fun _ => v k), if_pos (Finset.mem_univ k),
      if_neg hik, add_zero]

/-- Given the invariant and a nonzero pivot, the elimination step is left
multiplication by the elementary matrix `elimMat`. -/
theorem elimBelow_eq_mul {A : Matrix (Fin n) (Fin n) K} {B : Fin n → K} {i : Fin n}
    (hLZ : LowZero A i.val) (hpiv : A i i ≠ 0) :
    (elimBelow A B i).1 = elimMat A i * A ∧ (elimBelow A B i).2 = (elimMat A i).mulVec B := by
  constructor
  · ext k c
    rw [Matrix.mul_apply, elimMat_sum A i k (fun j => A j c)]
    show (elimBelow A B i).1 k c = _
    rw [elimBelow]
    simp only [Matrix.of_apply]
    by_cases hik : i < k
    · rw [if_pos hik]
      by_cases hc : i ≤ c
      · rw [if_pos ⟨hik, hc⟩]
        by_cases hci : c = i
        · subst hci
          rw [if_pos rfl, div_mul_cancel₀ _ hpiv, add_neg_cancel]
        · rw [if_neg hci]
      · rw [if_neg (fun h => hc h.2), hLZ i c (not_le.mp hc) (not_le.mp hc), mul_zero, add_zero]
    · rw [if_neg (fun h => hik h.1), if_neg hik, add_zero]
  · funext k
    show (elimBelow A B i).2 k = ∑ j, elimMat A i k j * B j
    rw [elimBelow]
    simp only
    rw [elimMat_sum A i k B]
    by_cases hik : i < k
    · rw [if_pos hik, if_pos hik]
    · rw [if_neg hik, if_neg hik, add_zero]

theorem mulVec_cancel_of_det_unit {E : Matrix (Fin n) (Fin n) K} (h : IsUnit E.det)
    {y z : Fin n → K} (hyz : E.mulVec y = E.mulVec z) : y = z := by
  have h1 := Matrix.nonsing_inv_mul E h
  calc y = (1 : Matrix (Fin n) (Fin n) K).mulVec y := by rw [Matrix.one_mulVec]
  _ = (E⁻¹ * E).mulVec y := by rw [h1]
  _ = E⁻¹.mulVec (E.mulVec y) := by rw [← Matrix.mulVec_mulVec]
  _ = E⁻¹.mulVec (E.mulVec z) := by rw [hyz]
  _ = (E⁻¹ * E).mulVec z := by rw [Matrix.mulVec_mulVec]
  _ = (1 : Matrix (Fin n) (Fin n) K).mulVec z := by rw [h1]
  _ = z := by rw [Matrix.one_mulVec]

end GEFacts3

section GEFacts4

variable {K : Type} [LinearOrderedField K] {n : ℕ}

/-- A matrix whose rows `≥ i` vanish on all columns `≤ i` is singular
(pigeonhole on the Leibniz expansion). -/
theorem det_eq_zero_of_block (A : Matrix (Fin n) (Fin n) K) (i : Fin n)
    (h : ∀ r c : Fin n, i ≤ r → c ≤ i → A r c = 0) : A.det = 0 := by
  rw [Matrix.det_apply]
  refine Finset.sum_eq_zero fun σ _ => ?_
  have hex : ∃ c : Fin n, c ≤ i ∧ i ≤ σ c := by
    by_contra hno
    push_neg at hno
    have hf : ∀ j : Fin (i.val + 1), (σ (Fin.castLE i.isLt j)).val < i.val := by
      intro j
      have hle : Fin.castLE i.isLt j ≤ i := by
        have := j.isLt
        exact Fin.mk_le_mk.mpr (by omega)
      exact hno _ hle
    have hinj : Function.Injective
        (fun j : Fin (i.val + 1) => (⟨(σ (Fin.castLE i.isLt j)).val, hf j⟩ : Fin i.val)) := by
      intro a b hab
      have h1 : (σ (Fin.castLE i.isLt a)).val = (σ (Fin.castLE i.isLt b)).val := by
        simpa using congrArg Fin.val hab
      have h3 := σ.injective (Fin.ext h1)
      have h4 : ((Fin.castLE i.isLt a) : Fin n).val = ((Fin.castLE i.isLt b) : Fin n).val :=
        congrArg Fin.val h3
      simp only [Fin.coe_castLE] at h4
      exact Fin.ext h4
    have hcard := Fintype.card_le_of_injective _ hinj
    simp only [Fintype.card_fin] at hcard
    omega
  obtain ⟨c, hc1, hc2⟩ := hex
  have hz : ∏ j : Fin n, A (σ j) j = 0 :=
    Finset.prod_eq_zero (Finset.mem_univ c) (h (σ c) c hc2 hc1)
  rw [hz, smul_zero]

/-- If the pivot selected at step `i` is zero while the state is nonsingular,
we get a contradiction: partial pivoting only selects a zero pivot when the
whole remaining column is zero, which makes the matrix singular. -/
theorem pivot_ne_zero_of_det (st : Matrix (Fin n) (Fin n) K × (Fin n → K)) {i : Fin n}
    (hLZ : LowZero st.1 i.val) (hdet : st.1.det ≠ 0) : (geStep st i).1 i i ≠ 0 := by
  intro h0
  rw [geStep_diag] at h0
  have hall : ∀ r : Fin n, i ≤ r → st.1 r i = 0 := by
    intro r hr
    have hmax := abs_le_pivotRow st.1 i r hr
    rw [h0, abs_zero] at hmax
    exact abs_eq_zero.mp (le_antisymm hmax (abs_nonneg _))
  refine hdet (det_eq_zero_of_block st.1 i ?_)
  intro r c hir hci
  rcases lt_or_eq_of_le hci with hlt | heq
  · have hlt' : c.val < i.val := hlt
    have hir' : i.val ≤ r.val := hir
    exact hLZ r c hlt' (by omega)
  · subst heq
    exact hall r hir

/-- Step `i` preserves both singularity and the solution set, provided the
invariant holds and the selected pivot is nonzero. -/
theorem geStep_det_solset (st : Matrix (Fin n) (Fin n) K × (Fin n → K)) {i : Fin n}
    (hLZ : LowZero st.1 i.val) (hpiv : (geStep st i).1 i i ≠ 0) :
    ((geStep st i).1.det = 0 ↔ st.1.det = 0) ∧
    (∀ x, (geStep st i).1.mulVec x = (geStep st i).2 ↔ st.1.mulVec x = st.2) := by
  have him : i ≤ pivotRow st.1 i := pivotRow_ge st.1 i
  set m := pivotRow st.1 i with hmdef
  set σ := Equiv.swap i m with hσ
  have hswapA : Matrix.of (swapRowsFrom st.1 i m) = st.1.submatrix σ id :=
    swapRowsFrom_eq_submatrix hLZ him
  have hswapB : swapB st.2 i m = fun r => st.2 (σ r) := swapB_eq_comp
  set A1 := st.1.submatrix σ id with hA1
  have hLZ1 : LowZero A1 i.val := by
    intro r c hc hcr
    show st.1 (σ r) c = 0
    refine hLZ (σ r) c hc ?_
    rw [hσ]
    rcases eq_or_ne r i with rfl | hri
    · rw [Equiv.swap_apply_left]
      have := Fin.le_iff_val_le_val.mp him
      omega
    · rcases eq_or_ne r m with rfl | hrm
      · rw [Equiv.swap_apply_right]
        have := Fin.le_iff_val_le_val.mp him
        omega
      · rw [Equiv.swap_apply_of_ne_of_ne hri hrm]
        exact hcr
  have hdiag : (geStep st i).1 i i = A1 i i := by
    rw [geStep_diag, hA1]
    show st.1 m i = st.1 (σ i) i
    rw [hσ, Equiv.swap_apply_left]
  have hpiv1 : A1 i i ≠ 0 := by rw [← hdiag]; exact hpiv
  obtain ⟨hEA, hEB⟩ := elimBelow_eq_mul (A := A1) (B := swapB st.2 i m) hLZ1 hpiv1
  have hstep1 : (geStep st i).1 = elimMat A1 i * A1 := by
    show (elimBelow (Matrix.of (swapRowsFrom st.1 i m)) (swapB st.2 i m) i).1 = _
    rw [hswapA]
    exact hEA
  have hstep2 : (geStep st i).2 = (elimMat A1 i).mulVec (swapB st.2 i m) := by
    show (elimBelow (Matrix.of (swapRowsFrom st.1 i m)) (swapB st.2 i m) i).2 = _
    rw [hswapA]
    exact hEB
  have hEunit : IsUnit (elimMat A1 i).det := by
    rw [det_elimMat]
    exact isUnit_one
  constructor
  · rw [hstep1, Matrix.det_mul, det_elimMat, one_mul, hA1]
    exact det_submatrix_swap_eq_zero_iff st.1 σ
  · intro x
    rw [hstep1, hstep2]
    constructor
    · intro h
      have h' : (elimMat A1 i).mulVec (A1.mulVec x) = (elimMat A1 i).mulVec (swapB st.2 i m) := by
        rw [Matrix.mulVec_mulVec]
        exact h
      have h2 := mulVec_cancel_of_det_unit hEunit h'
      rw [hswapB, hA1] at h2
      exact (mulVec_swap_iff st.1 st.2 σ x).mp h2
    · intro h
      have h2 : A1.mulVec x = swapB st.2 i m := by
        rw [hswapB, hA1]
        exact (mulVec_swap_iff st.1 st.2 σ x).mpr h
      rw [← Matrix.mulVec_mulVec, h2]

/-- Main forward-phase invariant for a nonsingular input system: every state
stays nonsingular and keeps the solution set of the input system. -/
theorem geAux_det_solset_of_det (st : Matrix (Fin n) (Fin n) K × (Fin n → K))
    (hdet : st.1.det ≠ 0) :
    ∀ t, (geAux st t).1.det ≠ 0 ∧
      (∀ x, (geAux st t).1.mulVec x = (geAux st t).2 ↔ st.1.mulVec x = st.2) := by
  intro t
  induction t with
  | zero => exact ⟨hdet, fun _ => Iff.rfl⟩
  | succ t ih =>
    by_cases ht : t < n
    · rw [geAux_succ st ht]
      have hLZ := lowZero_geAux st t
      have hpiv := pivot_ne_zero_of_det (geAux st t) (i := ⟨t, ht⟩) hLZ ih.1
      obtain ⟨hdet', hsol'⟩ := geStep_det_solset (geAux st t) (i := ⟨t, ht⟩) hLZ hpiv
      exact ⟨fun h => ih.1 (hdet'.mp h), fun x => (hsol' x).trans (ih.2 x)⟩
    · rw [geAux_succ_ge st ht]
      exact ih

theorem geForward_triangular (st : Matrix (Fin n) (Fin n) K × (Fin n → K)) :
    ∀ r c : Fin n, c < r → (geForward st).1 r c = 0 :=
  fun r c h => lowZero_geAux st n r c c.isLt h

/-- For a nonsingular input, every diagonal entry of the eliminated matrix
(i.e. every pivot) is nonzero. -/
theorem geForward_diag_ne_of_det (st : Matrix (Fin n) (Fin n) K × (Fin n → K))
    (hdet : st.1.det ≠ 0) (t : Fin n) : (geForward st).1 t t ≠ 0 := by
  have hfr := (geAux_freeze st (show t.val + 1 ≤ n from t.isLt) t (Nat.lt_succ_self _)).1 t
  rw [geForward, hfr, geAux_succ st t.isLt]
  have hLZ := lowZero_geAux st t.val
  have heq : (⟨t.val, t.isLt⟩ : Fin n) = t := Fin.eta t t.isLt
  rw [heq]
  exact pivot_ne_zero_of_det (geAux st t.val) hLZ (geAux_det_solset_of_det st hdet t.val).1

end GEFacts4

section GEFacts5

variable {K : Type} [LinearOrderedField K] {n : ℕ}

/-- The recursive recomputation of `x[j]` is fuel-insensitive once the fuel
covers the remaining indices. -/
theorem backSub_fuel_congr (A : Matrix (Fin n) (Fin n) K) (B : Fin n → K) :
    ∀ f1 f2 : ℕ, ∀ i : Fin n, n - i.val ≤ f1 → n - i.val ≤ f2 →
      backSub A B f1 i = backSub A B f2 i := by
  intro f1
  induction f1 using Nat.strong_induction_on with
  | _ f1 ih =>
    intro f2 i h1 h2
    have hi := i.isLt
    obtain ⟨g1, rfl⟩ : ∃ g, f1 = g + 1 := ⟨f1 - 1, by omega⟩
    obtain ⟨g2, rfl⟩ : ∃ g, f2 = g + 1 := ⟨f2 - 1, by omega⟩
    simp only [backSub]
    congr 2
    refine Finset.sum_congr rfl fun j hj => ?_
    have hij : i < j := (Finset.mem_filter.mp hj).2
    have hij' : i.val < j.val := hij
    have hj1 : n - j.val ≤ g1 := by omega
    have hj2 : n - j.val ≤ g2 := by omega
    rw [ih g1 (by omega) g2 j hj1 hj2]

/-- The defining recurrence of back substitution at the fuel used by
`solveMatrix`. -/
theorem backSub_rec (A : Matrix (Fin n) (Fin n) K) (B : Fin n → K) (i : Fin n) :
    backSub A B n i =
      (B i - ∑ j ∈ Finset.univ.filter (fun j => i < j), A i j * backSub A B n j) / A i i := by
  have h := backSub_fuel_congr A B n (n + 1) i (by omega) (by omega)
  rw [h]
  simp only [backSub]

/-- Back substitution solves an upper-triangular system with nonzero
diagonal. -/
theorem triangular_solve {A : Matrix (Fin n) (Fin n) K} {B : Fin n → K}
    (hTri : ∀ r c : Fin n, c < r → A r c = 0) (hdiag : ∀ j, A j j ≠ 0) :
    A.mulVec (fun i => backSub A B n i) = B := by
  funext r
  show ∑ j, A r j * backSub A B n j = B r
  have hsplit : ∑ j, A r j * backSub A B n j =
      (∑ j ∈ Finset.univ.filter (fun j => r < j), A r j * backSub A B n j) +
      (∑ j ∈ Finset.univ.filter (fun j => ¬r < j), A r j * backSub A B n j) :=
    (Finset.sum_filter_add_sum_filter_not _ _ _).symm
  have hlow : ∑ j ∈ Finset.univ.filter (fun j => ¬r < j), A r j * backSub A B n j =
      A r r * backSub A B n r := by
    refine Finset.sum_eq_single_of_mem r (by simp) ?_
    intro b hb hbr
    have hble : ¬r < b := (Finset.mem_filter.mp hb).2
    have : b < r := lt_of_le_of_ne (not_lt.mp hble) hbr
    rw [hTri r b this, zero_mul]
  rw [hsplit, hlow, backSub_rec, mul_comm (A r r), div_mul_cancel₀ _ (hdiag r)]
  ring

/-- **Correctness of `solveMatrix`** (exact arithmetic): for a nonsingular
matrix the returned vector solves the original system. -/
theorem solveMatrix_correct {A : Matrix (Fin n) (Fin n) K} {B : Fin n → K}
    (hdet : A.det ≠ 0) : A.mulVec (solveMatrix A B) = B := by
  have hmain := geAux_det_solset_of_det (A, B) hdet
  have htri := geForward_triangular (A, B)
  have hdiag : ∀ j : Fin n, (geForward (A, B)).1 j j ≠ 0 :=
    geForward_diag_ne_of_det (A, B) hdet
  have hsolve := triangular_solve (B := (geForward (A, B)).2) htri hdiag
  exact ((hmain n).2 (solveMatrix A B)).mp hsolve

/-- `solveMatrix_correct` specialised to `ℚ`; instantiating the generic
field lemma directly at the large concrete system terms is prohibitively
expensive for the elaborator, so the concrete claims go through this. -/
theorem solveMatrix_correct_rat {m : ℕ} (A : Matrix (Fin m) (Fin m) ℚ) (B : Fin m → ℚ)
    (hdet : A.det ≠ 0) : A.mulVec (solveMatrix A B) = B :=
  solveMatrix_correct hdet

/-- A nonsingular system has a unique solution. -/
theorem solveMatrix_unique {A : Matrix (Fin n) (Fin n) K} {B : Fin n → K}
    (hdet : A.det ≠ 0) {x y : Fin n → K}
    (hx : A.mulVec x = B) (hy : A.mulVec y = B) : x = y := by
  by_contra hne
  have hsub : A.mulVec (x - y) = 0 := by
    have : A.mulVec x - A.mulVec y = 0 := by rw [hx, hy, sub_self]
    rwa [← Matrix.mulVec_sub] at this
  have : ∃ v, v ≠ 0 ∧ A.mulVec v = 0 := ⟨x - y, sub_ne_zero_of_ne hne, hsub⟩
  exact hdet (Matrix.exists_mulVec_eq_zero_iff.mp this)

/-- A left inverse certifies nonsingularity. -/
theorem det_ne_zero_of_left_inv {A M : Matrix (Fin n) (Fin n) K} (h : M * A = 1) :
    A.det ≠ 0 := by
  intro h0
  have hd := congrArg Matrix.det h
  rw [Matrix.det_mul, Matrix.det_one, h0, mul_zero] at hd
  exact zero_ne_one hd

/-- `det_ne_zero_of_left_inv` specialised to `ℚ` (see
`solveMatrix_correct_rat` for why). -/
theorem det_ne_zero_of_left_inv_rat {m : ℕ} {A M : Matrix (Fin m) (Fin m) ℚ} (h : M * A = 1) :
    A.det ≠ 0 :=
  det_ne_zero_of_left_inv h

end GEFacts5

section ClaimC3

/-- **C3.** For every `n ≥ 1` and every nonsingular `n × n` matrix `A` and
vector `B`, `solveMatrix` performs Gaussian elimination with partial
pivoting — at each step `t` the row with the largest absolute coefficient
among rows `t..n-1` of column `t` is selected as pivot row (first
conjunct) — followed by back substitution, and the returned vector `x`
satisfies `A₀ · x = B₀` for the original inputs, in exact arithmetic
(second conjunct). -/
theorem C3_solver_correct {K : Type} [LinearOrderedField K] (n : ℕ) (hn : 1 ≤ n)
    (A : Matrix (Fin n) (Fin n) K) (B : Fin n → K) (hdet : A.det ≠ 0) :
    (∀ t r : Fin n, t ≤ r →
        |(geAux (A, B) t.val).1 r t| ≤
        |(geAux (A, B) t.val).1 (pivotRow (geAux (A, B) t.val).1 t) t|) ∧
    A.mulVec (solveMatrix A B) = B :=
  ⟨fun t r hr => abs_le_pivotRow _ t r hr, solveMatrix_correct hdet⟩

/-- Witness for C3 at the concrete nonsingular system
`[[2, 1], [1, 3]] · x = [5, 10]`. -/
theorem C3_solver_correct_witness :
    (1 ≤ 2 ∧ (Matrix.of ![![(2 : ℚ), 1], ![1, 3]]).det ≠ 0) ∧
    (Matrix.of ![![(2 : ℚ), 1], ![1, 3]]).mulVec
      (solveMatrix (Matrix.of ![![(2 : ℚ), 1], ![1, 3]]) ![5, 10]) = ![5, 10] := by
  have hdet : (Matrix.of ![![(2 : ℚ), 1], ![1, 3]]).det ≠ 0 := by
    rw [Matrix.det_fin_two]
    norm_num
  exact ⟨⟨by norm_num, hdet⟩,
    (C3_solver_correct 2 (by norm_num) (Matrix.of ![![(2 : ℚ), 1], ![1, 3]]) ![5, 10] hdet).2⟩

end ClaimC3

section ClaimC10

variable {K : Type} [LinearOrderedField K] {n : ℕ}

theorem geAuxFull_succ (st : Matrix (Fin n) (Fin n) K × (Fin n → K)) {t : ℕ} (ht : t < n) :
    geAuxFull st (t + 1) = geStepFull (geAuxFull st t) ⟨t, ht⟩ := by
  rw [geAuxFull, dif_pos ht]

theorem geAuxFull_succ_ge (st : Matrix (Fin n) (Fin n) K × (Fin n → K)) {t : ℕ} (ht : ¬ t < n) :
    geAuxFull st (t + 1) = geAuxFull st t := by
  rw [geAuxFull, dif_neg ht]

/-- Under the invariant, the columns-from-`i` swap equals the full-row swap:
the entries it skips are equal zeros. -/
theorem swapRowsFrom_eq_full {A : Matrix (Fin n) (Fin n) K} {i m : Fin n}
    (hLZ : LowZero A i.val) (him : i ≤ m) :
    swapRowsFrom (n := n) A i m = swapRowsFull (n := n) A i m := by
  funext r c
  rw [swapRowsFrom, swapRowsFull]
  by_cases hc : i ≤ c
  · rw [if_pos hc]
  · rw [if_neg hc]
    have hci : c.val < i.val := not_le.mp hc
    have hcm : c.val < m.val := by
      have := Fin.le_iff_val_le_val.mp him
      omega
    by_cases hri : r = i
    · subst hri
      rw [if_pos rfl, hLZ r c hci (by omega), hLZ m c hci hcm]
    · rw [if_neg hri]
      by_cases hrm : r = m
      · subst hrm
        rw [if_pos rfl, hLZ r c hci hcm, hLZ i c hci (by omega)]
      · rw [if_neg hrm]

theorem geStep_eq_full {st : Matrix (Fin n) (Fin n) K × (Fin n → K)} {i : Fin n}
    (hLZ : LowZero st.1 i.val) : geStep st i = geStepFull st i := by
  rw [geStep, geStepFull, swapRowsFrom_eq_full hLZ (pivotRow_ge st.1 i)]

theorem geAux_eq_full (st : Matrix (Fin n) (Fin n) K × (Fin n → K)) :
    ∀ t, geAux st t = geAuxFull st t := by
  intro t
  induction t with
  | zero => rfl
  | succ t ih =>
    by_cases ht : t < n
    · rw [geAux_succ st ht, geAuxFull_succ st ht, geStep_eq_full (lowZero_geAux st t), ih]
    · rw [geAux_succ_ge st ht, geAuxFull_succ_ge st ht, ih]

/-- **C10.** Invariant of the elimination loop: at the start of each step
`i`, `A[r][c] = 0` for every row `r ≥ i` and column `c < i`; consequently
the swap that exchanges only columns `i..n-1` of rows `i` and `maxRow`,
together with the pivot search restricted to rows `i..n-1`, is equivalent
to Gaussian elimination with full-row-swap partial pivoting. -/
theorem C10_loop_invariant {K : Type} [LinearOrderedField K] (n : ℕ)
    (A : Matrix (Fin n) (Fin n) K) (B : Fin n → K) :
    (∀ (i : ℕ) (r c : Fin n), i ≤ r.val → c.val < i → (geAux (A, B) i).1 r c = 0) ∧
    geForward (A, B) = geForwardFull (A, B) := by
  constructor
  · intro i r c hir hci
    exact lowZero_geAux (A, B) i r c hci (by omega)
  · rw [geForward, geForwardFull, geAux_eq_full]

/-- Witness for C10 at a concrete system, step `i = 1`, entry `(1, 0)`. -/
theorem C10_loop_invariant_witness :
    ((geAux (Matrix.of ![![(0 : ℚ), 1], ![1, 0]], ![1, 2]) 1).1 1 0 = 0) ∧
    geForward (Matrix.of ![![(0 : ℚ), 1], ![1, 0]], ![1, 2]) =
      geForwardFull (Matrix.of ![![(0 : ℚ), 1], ![1, 0]], ![1, 2]) := by
  obtain ⟨h1, h2⟩ := C10_loop_invariant 2 (Matrix.of ![![(0 : ℚ), 1], ![1, 0]]) ![1, 2]
  exact ⟨h1 1 1 0 (by decide) (by decide), h2⟩

end ClaimC10

section ClaimC5

theorem vec8_five {α : Type} (a0 a1 a2 a3 a4 a5 a6 a7 : α) :
    (![a0, a1, a2, a3, a4, a5, a6, a7]) (5 : Fin 8) = a5 := by
  rw [show (5 : Fin 8) = ⟨5, by norm_num⟩ from rfl]
  norm_num

theorem vec8_six {α : Type} (a0 a1 a2 a3 a4 a5 a6 a7 : α) :
    (![a0, a1, a2, a3, a4, a5, a6, a7]) (6 : Fin 8) = a6 := by
  rw [show (6 : Fin 8) = ⟨6, by norm_num⟩ from rfl]
  norm_num

theorem vec8_seven {α : Type} (a0 a1 a2 a3 a4 a5 a6 a7 : α) :
    (![a0, a1, a2, a3, a4, a5, a6, a7]) (7 : Fin 8) = a7 := by
  rw [show (7 : Fin 8) = ⟨7, by norm_num⟩ from rfl]
  norm_num

theorem warpDst_rect (W H : ℕ) : warpDst (rectCorners W H) = rectCorners W H := by
  rw [warpDst, warpDims_rect]
  rfl

/-- Any solution of the homography system of the full-rectangle quadrilateral
with right-hand side scaled by `c` is `[c,0,0,0,c,0,0,0]`; at `c = 1` this is
uniqueness of the identity homography, at `c = 0` it is injectivity. -/
theorem rect_hom_solution (W H : ℕ) (hW : 0 < W) (hH : 0 < H) (c : ℚ) (h : Fin 8 → ℚ)
    (hsol : (homSysA (rectCorners W H) (rectCorners W H)).mulVec h =
      c • homSysB (rectCorners W H)) :
    h = ![c, 0, 0, 0, c, 0, 0, 0] := by
  have hWQ : (W : ℚ) ≠ 0 := Nat.cast_ne_zero.mpr (Nat.pos_iff_ne_zero.mp hW)
  have hHQ : (H : ℚ) ≠ 0 := Nat.cast_ne_zero.mpr (Nat.pos_iff_ne_zero.mp hH)
  have he : ∀ r : Fin 8,
      ∑ j, homSysA (rectCorners W H) (rectCorners W H) r j * h j =
        c * homSysB (rectCorners W H) r := by
    intro r
    have hr := congrFun hsol r
    simpa [Matrix.mulVec, Matrix.dotProduct, Pi.smul_apply, smul_eq_mul] using hr
  have e0 := he ⟨0, by norm_num⟩
  have e1 := he ⟨1, by norm_num⟩
  have e2 := he ⟨2, by norm_num⟩
  have e3 := he ⟨3, by norm_num⟩
  have e4 := he ⟨4, by norm_num⟩
  have e5 := he ⟨5, by norm_num⟩
  have e6 := he ⟨6, by norm_num⟩
  have e7 := he ⟨7, by norm_num⟩
  rw [Fin.sum_univ_eight] at e0 e1 e2 e3 e4 e5 e6 e7
  norm_num [homSysA, homSysB, rectCorners, Matrix.of_apply, vec8_five, vec8_six, vec8_seven]
    at e0 e1 e2 e3 e4 e5 e6 e7
  have E2 : h 2 = 0 := e0
  have E5 : h 5 = 0 := e1
  rw [E2] at e2 e4 e6
  rw [E5] at e3 e5 e7
  have E3 : h 3 = 0 := by
    have h' : (W : ℚ) * h 3 = 0 := by linarith
    exact (mul_eq_zero.mp h').resolve_left hWQ
  have E1 : h 1 = 0 := by
    have h' : (H : ℚ) * h 1 = 0 := by linarith
    exact (mul_eq_zero.mp h').resolve_left hHQ
  rw [E1] at e4
  rw [E3] at e5
  have E7 : h 7 = 0 := by
    have h' : ((H : ℚ) * (W : ℚ)) * h 7 = 0 := by linarith
    exact (mul_eq_zero.mp h').resolve_left (mul_ne_zero hHQ hWQ)
  rw [E7] at e7
  have E4 : h 4 = c := by
    have h' : (H : ℚ) * (h 4 - c) = 0 := by linarith
    have := (mul_eq_zero.mp h').resolve_left hHQ
    linarith
  rw [E4, E7] at e5
  have E6 : h 6 = 0 := by
    have h' : ((W : ℚ) * (H : ℚ)) * h 6 = 0 := by linarith
    exact (mul_eq_zero.mp h').resolve_left (mul_ne_zero hWQ hHQ)
  rw [E6] at e2
  have E0 : h 0 = c := by
    have h' : (W : ℚ) * (h 0 - c) = 0 := by linarith
    have := (mul_eq_zero.mp h').resolve_left hWQ
    linarith
  funext j
  fin_cases j
  · simpa using E0
  · simpa using E1
  · simpa using E2
  · simpa using E3
  · simpa using E4
  · simpa using E5
  · simpa using E6
  · simpa using E7

theorem jround_natCast (z : ℕ) : jround (z : ℚ) = (z : ℤ) := by
  rw [jround]
  rw [Int.floor_eq_iff]
  constructor
  · push_cast
    linarith
  · push_cast
    linarith

set_option maxRecDepth 8000 in
/-- The homography system of the full-rectangle quadrilateral is
nonsingular (via injectivity, i.e. `rect_hom_solution` at `c = 0`). -/
theorem rect_det_ne (W H : ℕ) (hW : 0 < W) (hH : 0 < H) :
    (homSysA (rectCorners W H) (warpDst (rectCorners W H))).det ≠ 0 := by
  rw [warpDst_rect]
  intro h0
  obtain ⟨v, hv0, hv⟩ := Matrix.exists_mulVec_eq_zero_iff.mpr h0
  have hveq := rect_hom_solution W H hW hH 0 v (by rw [zero_smul]; exact hv)
  apply hv0
  rw [hveq]
  funext j
  fin_cases j <;> norm_num

set_option maxRecDepth 8000 in
/-- **C5.** For every source raster of dimensions `W > 0`, `H > 0`,
rectifying with the full axis-aligned rectangle `(0,0), (W,0), (W,H), (0,H)`
yields `maxWidth = W`, `maxHeight = H`, the solved homography is the
identity `[1,0,0,0,1,0,0,0]`, and the output raster is pixel-identical to
the source. -/
theorem C5_identity_rectangle (W H : ℕ) (hW : 0 < W) (hH : 0 < H) (src : ℕ → ℕ → Pixel) :
    (warpPerspective W H src (rectCorners W H)).maxWidth = W ∧
    (warpPerspective W H src (rectCorners W H)).maxHeight = H ∧
    (warpPerspective W H src (rectCorners W H)).H = ![1, 0, 0, 0, 1, 0, 0, 0] ∧
    (∀ x y, x < W → y < H → (warpPerspective W H src (rectCorners W H)).out x y = src x y) := by
  have hdims := warpDims_rect W H
  have hdst := warpDst_rect W H
  have hmw : (warpPerspective W H src (rectCorners W H)).maxWidth = W := by
    show (warpDims (rectCorners W H)).1 = W
    rw [hdims]
  have hmh : (warpPerspective W H src (rectCorners W H)).maxHeight = H := by
    show (warpDims (rectCorners W H)).2 = H
    rw [hdims]
  have hdet : (homSysA (rectCorners W H) (warpDst (rectCorners W H))).det ≠ 0 :=
    rect_det_ne W H hW hH
  have hsolve := solveMatrix_correct_rat
    (homSysA (rectCorners W H) (warpDst (rectCorners W H)))
    (homSysB (rectCorners W H)) hdet
  have hH8 : warpH (rectCorners W H) = ![1, 0, 0, 0, 1, 0, 0, 0] := by
    rw [hdst] at hsolve
    have := rect_hom_solution W H hW hH 1
      (solveMatrix (homSysA (rectCorners W H) (rectCorners W H)) (homSysB (rectCorners W H)))
      (by rw [one_smul]; exact hsolve)
    rw [warpH, hdst]
    exact this
  refine ⟨hmw, hmh, hH8, ?_⟩
  intro x y hx hy
  show warpPixel (warpH (rectCorners W H)) W H src x y = src x y
  rw [hH8, warpPixel]
  norm_num [vec8_five, vec8_six, vec8_seven]
  rw [jround_natCast, jround_natCast]
  rw [if_pos ⟨Int.ofNat_nonneg x, by exact_mod_cast hx, Int.ofNat_nonneg y, by exact_mod_cast hy⟩]
  rw [Int.toNat_natCast, Int.toNat_natCast]

/-- Witness for C5 at `W = 2`, `H = 3` and a concrete source raster. -/
theorem C5_identity_rectangle_witness :
    ((0 : ℕ) < 2 ∧ (0 : ℕ) < 3) ∧
    ((warpPerspective 2 3 (fun x y => ⟨x, y, 0, 255⟩) (rectCorners 2 3)).maxWidth = 2 ∧
     (warpPerspective 2 3 (fun x y => ⟨x, y, 0, 255⟩) (rectCorners 2 3)).maxHeight = 3 ∧
     (warpPerspective 2 3 (fun x y => ⟨x, y, 0, 255⟩) (rectCorners 2 3)).H =
       ![1, 0, 0, 0, 1, 0, 0, 0] ∧
     (∀ x y, x < 2 → y < 3 →
       (warpPerspective 2 3 (fun x y => ⟨x, y, 0, 255⟩) (rectCorners 2 3)).out x y =
         (fun x y => (⟨x, y, 0, 255⟩ : Pixel)) x y)) :=
  ⟨⟨by norm_num, by norm_num⟩,
    C5_identity_rectangle 2 3 (by norm_num) (by norm_num) (fun x y => ⟨x, y, 0, 255⟩)⟩

end ClaimC5

section ClaimC8

/-- Rows 0 and 1 of the system force `h2 = p0.x` and `h5 = p0.y` whenever
the solver's output actually solves the system. -/
theorem warpH_corner0 (pts : Fin 4 → Point)
    (hdet : (homSysA pts (warpDst pts)).det ≠ 0) :
    warpH pts 2 = (pts 0).x ∧ warpH pts 5 = (pts 0).y := by
  have hsolve := solveMatrix_correct_rat (homSysA pts (warpDst pts)) (homSysB pts) hdet
  have e0 := congrFun hsolve ⟨0, by norm_num⟩
  have e1 := congrFun hsolve ⟨1, by norm_num⟩
  have he0 : ∑ j, homSysA pts (warpDst pts) ⟨0, by norm_num⟩ j * warpH pts j = (pts 0).x := by
    have hb : homSysB pts ⟨0, by norm_num⟩ = (pts 0).x := by norm_num [homSysB]
    rw [← hb]
    exact e0
  have he1 : ∑ j, homSysA pts (warpDst pts) ⟨1, by norm_num⟩ j * warpH pts j = (pts 0).y := by
    have hb : homSysB pts ⟨1, by norm_num⟩ = (pts 0).y := by norm_num [homSysB]
    rw [← hb]
    exact e1
  rw [Fin.sum_univ_eight] at he0 he1
  norm_num [homSysA, warpDst, Matrix.of_apply, vec8_five, vec8_six, vec8_seven] at he0 he1
  exact ⟨he0, he1⟩

/-- **C8.** For every quadrilateral whose homography system is nonsingular,
the solved coefficients satisfy `h2 = p0.x` and `h5 = p0.y`; hence, at
destination pixel `(0, 0)`, `denom = 1` and the inverse map yields exactly
`p0` in exact arithmetic. -/
theorem C8_corner_zero (pts : Fin 4 → Point)
    (hdet : (homSysA pts (warpDst pts)).det ≠ 0) :
    warpH pts 2 = (pts 0).x ∧ warpH pts 5 = (pts 0).y ∧
    warpH pts 6 * (0 : ℚ) + warpH pts 7 * (0 : ℚ) + 1 = 1 ∧
    (warpH pts 0 * 0 + warpH pts 1 * 0 + warpH pts 2) /
      (warpH pts 6 * 0 + warpH pts 7 * 0 + 1) = (pts 0).x ∧
    (warpH pts 3 * 0 + warpH pts 4 * 0 + warpH pts 5) /
      (warpH pts 6 * 0 + warpH pts 7 * 0 + 1) = (pts 0).y := by
  obtain ⟨he0, he1⟩ := warpH_corner0 pts hdet
  refine ⟨he0, he1, by ring, ?_, ?_⟩
  · rw [he0]
    simp only [mul_zero, zero_add, div_one]
  · rw [he1]
    simp only [mul_zero, zero_add, div_one]

/-- Witness for C8: the unit-square quadrilateral, whose system is
nonsingular. -/
theorem C8_corner_zero_witness :
    (homSysA (rectCorners 1 1) (warpDst (rectCorners 1 1))).det ≠ 0 ∧
    (warpH (rectCorners 1 1) 2 = (rectCorners 1 1 0).x ∧
     warpH (rectCorners 1 1) 5 = (rectCorners 1 1 0).y ∧
     warpH (rectCorners 1 1) 6 * (0 : ℚ) + warpH (rectCorners 1 1) 7 * (0 : ℚ) + 1 = 1 ∧
     (warpH (rectCorners 1 1) 0 * 0 + warpH (rectCorners 1 1) 1 * 0 + warpH (rectCorners 1 1) 2) /
       (warpH (rectCorners 1 1) 6 * 0 + warpH (rectCorners 1 1) 7 * 0 + 1) =
         (rectCorners 1 1 0).x ∧
     (warpH (rectCorners 1 1) 3 * 0 + warpH (rectCorners 1 1) 4 * 0 + warpH (rectCorners 1 1) 5) /
       (warpH (rectCorners 1 1) 6 * 0 + warpH (rectCorners 1 1) 7 * 0 + 1) =
         (rectCorners 1 1 0).y) :=
  ⟨rect_det_ne 1 1 (by norm_num) (by norm_num),
    C8_corner_zero (rectCorners 1 1) (rect_det_ne 1 1 (by norm_num) (by norm_num))⟩

end ClaimC8

section ClaimC7

/-- The concrete quadrilateral of the spec's worked example:
`{(20,10), (180,10), (190,90), (10,90)}` on a 200×100 source image. -/
def ptsC7 : Fin 4 → Point := ![⟨20, 10⟩, ⟨180, 10⟩, ⟨190, 90⟩, ⟨10, 90⟩]

theorem roundSqrt_32400 : roundSqrt (32400 : ℚ) = 180 := by
  have p1 : (⌊(4 : ℚ) * 32400⌋).toNat = 129600 := by
    rw [show (4 : ℚ) * 32400 = ((129600 : ℤ) : ℚ) by norm_num, Int.floor_intCast]
    rfl
  rw [roundSqrt, p1, natSqrt_eval (m := 129600) (s := 360) (by norm_num) (by norm_num)]

theorem roundSqrt_6500 : roundSqrt (6500 : ℚ) = 81 := by
  have p1 : (⌊(4 : ℚ) * 6500⌋).toNat = 26000 := by
    rw [show (4 : ℚ) * 6500 = ((26000 : ℤ) : ℚ) by norm_num, Int.floor_intCast]
    rfl
  rw [roundSqrt, p1, natSqrt_eval (m := 26000) (s := 161) (by norm_num) (by norm_num)]

theorem warpDims_C7 : warpDims ptsC7 = (180, 81) := by
  have h1 : distSq (ptsC7 0) (ptsC7 1) = 25600 := by norm_num [ptsC7, distSq]
  have h2 : distSq (ptsC7 3) (ptsC7 2) = 32400 := by norm_num [ptsC7, distSq]
  have h3 : distSq (ptsC7 0) (ptsC7 3) = 6500 := by norm_num [ptsC7, distSq]
  have h4 : distSq (ptsC7 1) (ptsC7 2) = 6500 := by norm_num [ptsC7, distSq]
  rw [warpDims, h1, h2, h3, h4, max_self,
    show max (25600 : ℚ) 32400 = 32400 by norm_num, roundSqrt_32400, roundSqrt_6500]

theorem warpDst_C7 : warpDst ptsC7 = ![⟨0, 0⟩, ⟨180, 0⟩, ⟨180, 81⟩, ⟨0, 81⟩] := by
  rw [warpDst, warpDims_C7]
  funext i
  fin_cases i <;> norm_num

/-- The homography system of the example, fully evaluated. -/
theorem homSysA_C7 : homSysA ptsC7 (warpDst ptsC7) = Matrix.of
    ![![0, 0, 1, 0, 0, 0, 0, 0],
      ![0, 0, 0, 0, 0, 1, 0, 0],
      ![180, 0, 1, 0, 0, 0, -32400, 0],
      ![0, 0, 0, 180, 0, 1, -1800, 0],
      ![180, 81, 1, 0, 0, 0, -34200, -15390],
      ![0, 0, 0, 180, 81, 1, -16200, -7290],
      ![0, 81, 1, 0, 0, 0, 0, -810],
      ![0, 0, 0, 0, 81, 1, 0, -7290]] := by
  rw [warpDst_C7]
  funext r c
  fin_cases r <;> fin_cases c <;> norm_num [homSysA, ptsC7, Matrix.of_apply]

/-- An explicit exact inverse of the example's system matrix. -/
def invC7 : Matrix (Fin 8) (Fin 8) ℚ := Matrix.of
  ![![-1/180, -1/80, 1/180, 1/80, 0, -1/80, 0, 1/80],
    ![-19/1458, 1/11664, 1/1458, -1/11664, -1/1458, 1/11664, 19/1458, -1/11664],
    ![1, 0, 0, 0, 0, 0, 0, 0],
    ![0, -1/160, 0, 1/160, 0, -1/1440, 0, 1/1440],
    ![-1/162, -5/432, 1/162, -1/1296, -1/162, 1/1296, 1/162, 5/432],
    ![0, 1, 0, 0, 0, 0, 0, 0],
    ![0, -1/14400, 0, 1/14400, 0, -1/14400, 0, 1/14400],
    ![-1/14580, 1/116640, 1/14580, -1/116640, -1/14580, 1/116640, 1/14580, -1/116640]]

set_option maxHeartbeats 2000000 in
theorem invC7_mul : invC7 * homSysA ptsC7 (warpDst ptsC7) = 1 := by
  rw [homSysA_C7]
  funext i j
  rw [Matrix.mul_apply, Fin.sum_univ_eight]
  fin_cases i <;> fin_cases j <;>
    norm_num [invC7, Matrix.of_apply, Matrix.one_apply, vec8_five, vec8_six, vec8_seven,
      Fin.ext_iff, -Matrix.cons_val']

theorem detC7_ne : (homSysA ptsC7 (warpDst ptsC7)).det ≠ 0 :=
  det_ne_zero_of_left_inv_rat invC7_mul

/-- **C7 counterexample.** On the spec's own example the code produces
`maxHeight = 81`, not `80`: the left/right edge lengths are `√6500 ≈ 80.62`
and `Math.round (√6500) = 81`. -/
theorem C7_example_counterexample :
    (warpPerspective 200 100 (fun _ _ => whitePixel) ptsC7).maxHeight = 81 ∧
    (warpPerspective 200 100 (fun _ _ => whitePixel) ptsC7).maxHeight ≠ 80 := by
  have h : (warpPerspective 200 100 (fun _ _ => whitePixel) ptsC7).maxHeight = 81 := by
    show (warpDims ptsC7).2 = 81
    rw [warpDims_C7]
  exact ⟨h, by rw [h]; norm_num⟩

theorem jround_q20 : jround (20 : ℚ) = 20 := by
  rw [show (20 : ℚ) = ((20 : ℕ) : ℚ) by norm_num, jround_natCast]
  norm_num

theorem jround_q10 : jround (10 : ℚ) = 10 := by
  rw [show (10 : ℚ) = ((10 : ℕ) : ℚ) by norm_num, jround_natCast]
  norm_num

/-- **C7 (amended).** For the 200×100 source and the quadrilateral
`{(20,10), (180,10), (190,90), (10,90)}`, `warpPerspective` produces
`maxWidth = 180` and `maxHeight = 81` (an output raster of 180×81), and
the destination pixel `(0, 0)` equals the source pixel nearest `(20, 10)`,
namely the pixel at `(20, 10)` itself. -/
theorem C7_example_amended (src : ℕ → ℕ → Pixel) :
    (warpPerspective 200 100 src ptsC7).maxWidth = 180 ∧
    (warpPerspective 200 100 src ptsC7).maxHeight = 81 ∧
    (warpPerspective 200 100 src ptsC7).out 0 0 = src 20 10 := by
  refine ⟨?_, ?_, ?_⟩
  · show (warpDims ptsC7).1 = 180
    rw [warpDims_C7]
  · show (warpDims ptsC7).2 = 81
    rw [warpDims_C7]
  · obtain ⟨h2, h5⟩ := warpH_corner0 ptsC7 detC7_ne
    have h2' : warpH ptsC7 2 = 20 := by rw [h2]; norm_num [ptsC7]
    have h5' : warpH ptsC7 5 = 10 := by rw [h5]; norm_num [ptsC7]
    show warpPixel (warpH ptsC7) 200 100 src 0 0 = src 20 10
    simp only [warpPixel, h2', h5', Nat.cast_zero, mul_zero, zero_add, add_zero, div_one,
      jround_q20, jround_q10]
    rw [if_pos]
    · rfl
    · refine ⟨by norm_num, by norm_num, by norm_num, by norm_num⟩

end ClaimC7

section JNumLemmas

open JNum

theorem JNum.add_nan_left (b : JNum) : add nan b = nan := by
  rcases b with _ | _ | _ | b <;> rfl

theorem JNum.add_nan_right (a : JNum) : add a nan = nan := by
  rcases a with _ | _ | _ | a <;> rfl

theorem JNum.add_nonfinite_left {a : JNum} (ha : a.isFinite = false) (b : JNum) :
    (add a b).isFinite = false := by
  rcases a with _ | _ | _ | a <;> rcases b with _ | _ | _ | b <;> simp_all [add, isFinite]

theorem JNum.add_nonfinite_right {b : JNum} (hb : b.isFinite = false) (a : JNum) :
    (add a b).isFinite = false := by
  rcases a with _ | _ | _ | a <;> rcases b with _ | _ | _ | b <;> simp_all [add, isFinite]

theorem JNum.neg_nonfinite {a : JNum} (ha : a.isFinite = false) : (neg a).isFinite = false := by
  rcases a with _ | _ | _ | a <;> simp_all [neg, isFinite]

theorem JNum.sub_nan_left (b : JNum) : sub nan b = nan := by
  rcases b with _ | _ | _ | b <;> rfl

theorem JNum.sub_nonfinite_right {b : JNum} (hb : b.isFinite = false) (a : JNum) :
    (sub a b).isFinite = false :=
  add_nonfinite_right (neg_nonfinite hb) a

theorem JNum.mul_nan_left (b : JNum) : mul nan b = nan := by
  rcases b with _ | _ | _ | b <;> rfl

theorem JNum.mul_nan_right (a : JNum) : mul a nan = nan := by
  rcases a with _ | _ | _ | a <;> rfl

theorem JNum.mul_nonfinite_right {b : JNum} (hb : b.isFinite = false) (a : JNum) :
    (mul a b).isFinite = false := by
  rcases b with _ | _ | _ | b
  · rw [mul_nan_right]
    rfl
  · rcases a with _ | _ | _ | a
    · rfl
    · rfl
    · rfl
    · show (if a = 0 then nan else if 0 < a then pinf else ninf).isFinite = false
      split_ifs <;> rfl
  · rcases a with _ | _ | _ | a
    · rfl
    · rfl
    · rfl
    · show (if a = 0 then nan else if 0 < a then ninf else pinf).isFinite = false
      split_ifs <;> rfl
  · simp [isFinite] at hb

theorem JNum.div_nan_left (b : JNum) : div nan b = nan := by
  rcases b with _ | _ | _ | b <;> rfl

theorem JNum.div_nonfinite_left {a : JNum} (ha : a.isFinite = false) (b : JNum) :
    (div a b).isFinite = false := by
  rcases a with _ | _ | _ | a
  · rw [div_nan_left]
    rfl
  · rcases b with _ | _ | _ | b
    · rfl
    · rfl
    · rfl
    · show (if 0 ≤ b then pinf else ninf).isFinite = false
      split_ifs <;> rfl
  · rcases b with _ | _ | _ | b
    · rfl
    · rfl
    · rfl
    · show (if 0 ≤ b then ninf else pinf).isFinite = false
      split_ifs <;> rfl
  · simp [isFinite] at ha

theorem JNum.div_fin_zero_nonfinite (a : JNum) : (div a (fin 0)).isFinite = false := by
  rcases a with _ | _ | _ | a
  · rfl
  · show (if (0 : ℚ) ≤ 0 then pinf else ninf).isFinite = false
    rw [if_pos le_rfl]
    rfl
  · show (if (0 : ℚ) ≤ 0 then ninf else pinf).isFinite = false
    rw [if_pos le_rfl]
    rfl
  · show (if (0 : ℚ) = 0 then (if a = 0 then nan else if 0 < a then pinf else ninf)
        else fin (a / 0)).isFinite = false
    rw [if_pos rfl]
    split_ifs <;> rfl

theorem JNum.rnd_nonfinite {a : JNum} (ha : a.isFinite = false) : (rnd a).isFinite = false := by
  rcases a with _ | _ | _ | a <;> simp_all [rnd, isFinite]

theorem JNum.bounds_false {s : JNum} (hs : s.isFinite = false) (w : ℕ) :
    (geJ s (fin 0) && gtJ (fin w) s) = false := by
  rcases s with _ | _ | _ | s
  · rfl
  · simp [geJ, gtJ]
  · simp [geJ]
  · simp [isFinite] at hs

theorem JNum.gtJ_abs_fin0 {x : JNum} (h : gtJ (JNum.abs x) (fin 0) = false) :
    x = nan ∨ x = fin 0 := by
  rcases x with _ | _ | _ | x
  · exact Or.inl rfl
  · simp [JNum.abs, gtJ] at h
  · simp [JNum.abs, gtJ] at h
  · simp only [JNum.abs, gtJ, decide_eq_false_iff_not, not_lt] at h
    right
    have : |x| = 0 := le_antisymm h (abs_nonneg x)
    rw [abs_eq_zero.mp this]

theorem JNum.gtJ_cross {c a r : JNum} (h1 : gtJ c a = true) (h2 : gtJ c r = false) :
    gtJ a r = false := by
  rcases a with _ | _ | _ | a <;> rcases c with _ | _ | _ | c <;> rcases r with _ | _ | _ | r <;>
    simp_all [gtJ] <;> linarith

theorem JNum.gtJ_notgt_trans {x a r : JNum} (ha : a ≠ nan) (h1 : gtJ x a = false)
    (h2 : gtJ a r = false) : gtJ x r = false := by
  rcases x with _ | _ | _ | x <;> rcases a with _ | _ | _ | a <;> rcases r with _ | _ | _ | r <;>
    simp_all [gtJ] <;> linarith

theorem JNum.sum_nonfinite {n : ℕ} {s : Finset (Fin n)} {f : Fin n → JNum} {j : Fin n}
    (hj : j ∈ s) (hf : (f j).isFinite = false) : (∑ x ∈ s, f x).isFinite = false := by
  rw [← Finset.add_sum_erase s f hj]
  exact add_nonfinite_left hf _

end JNumLemmas

section JNumSolverFacts

open JNum

variable {n : ℕ}

theorem pivotJ_foldl_mem (A : Fin n → Fin n → JNum) (i : Fin n) :
    ∀ (l : List (Fin n)) (a : Fin n),
      l.foldl (fun r k => if gtJ (JNum.abs (A k i)) (JNum.abs (A r i)) then k else r) a = a ∨
      l.foldl (fun r k => if gtJ (JNum.abs (A k i)) (JNum.abs (A r i)) then k else r) a ∈ l := by
  intro l
  induction l with
  | nil => intro a; exact Or.inl rfl
  | cons x xs ih =>
    intro a
    simp only [List.foldl_cons]
    rcases ih (if gtJ (JNum.abs (A x i)) (JNum.abs (A a i)) then x else a) with h | h
    · rw [h]
      by_cases hc : gtJ (JNum.abs (A x i)) (JNum.abs (A a i)) = true
      · rw [if_pos hc]; exact Or.inr (List.mem_cons_self x xs)
      · rw [if_neg hc]; exact Or.inl rfl
    · exact Or.inr (List.mem_cons_of_mem x h)

/-- Once the accumulator's pivot-column entry is `NaN`, the fold never moves. -/
theorem pivotJ_foldl_nan (A : Fin n → Fin n → JNum) (i : Fin n) :
    ∀ (l : List (Fin n)) (a : Fin n), JNum.abs (A a i) = nan →
      l.foldl (fun r k => if gtJ (JNum.abs (A k i)) (JNum.abs (A r i)) then k else r) a = a := by
  intro l
  induction l with
  | nil => intro a _; rfl
  | cons x xs ih =>
    intro a ha
    simp only [List.foldl_cons]
    have hcond : gtJ (JNum.abs (A x i)) (JNum.abs (A a i)) = false := by
      rw [ha]
      rcases JNum.abs (A x i) with _ | _ | _ | q <;> rfl
    rw [if_neg (by rw [hcond]; exact Bool.false_ne_true)]
    exact ih a ha

/-- No scanned row (nor the initial one) compares strictly greater than the
fold's result in the JavaScript `>` of absolute values. -/
theorem pivotJ_foldl_max (A : Fin n → Fin n → JNum) (i : Fin n) :
    ∀ (l : List (Fin n)) (a : Fin n),
      gtJ (JNum.abs (A a i))
        (JNum.abs (A (l.foldl (fun r k => if gtJ (JNum.abs (A k i)) (JNum.abs (A r i)) then k else r) a) i)) = false ∧
      ∀ k ∈ l, gtJ (JNum.abs (A k i))
        (JNum.abs (A (l.foldl (fun r k => if gtJ (JNum.abs (A k i)) (JNum.abs (A r i)) then k else r) a) i)) = false := by
  intro l
  induction l with
  | nil =>
    intro a
    refine ⟨?_, by simp⟩
    simp only [List.foldl_nil]
    generalize JNum.abs (A a i) = v
    rcases v with _ | _ | _ | q <;> simp [gtJ]
  | cons x xs ih =>
    intro a
    simp only [List.foldl_cons]
    by_cases hc : gtJ (JNum.abs (A x i)) (JNum.abs (A a i)) = true
    · rw [if_pos hc]
      obtain ⟨ih1, ih2⟩ := ih x
      refine ⟨gtJ_cross hc ih1, ?_⟩
      intro k hk
      rcases List.mem_cons.mp hk with rfl | hk
      · exact ih1
      · exact ih2 k hk
    · rw [if_neg hc]
      obtain ⟨ih1, ih2⟩ := ih a
      refine ⟨ih1, ?_⟩
      intro k hk
      rcases List.mem_cons.mp hk with rfl | hk
      · by_cases hnan : JNum.abs (A a i) = nan
        · rw [pivotJ_foldl_nan A i xs a hnan, hnan]
          rcases JNum.abs (A k i) with _ | _ | _ | q <;> rfl
        · exact gtJ_notgt_trans hnan (Bool.eq_false_iff.mpr hc) ih1
      · exact ih2 k hk

theorem pivotRowJ_ge (A : Fin n → Fin n → JNum) (i : Fin n) : i ≤ pivotRowJ A i := by
  rcases pivotJ_foldl_mem A i ((List.finRange n).drop (i.val + 1)) i with h | h
  · rw [pivotRowJ, h]
  · have := (mem_drop_finRange _).mp h
    rw [pivotRowJ] at *
    exact le_of_lt (by omega)

theorem gtJ_abs_le_pivotRowJ (A : Fin n → Fin n → JNum) (i : Fin n) :
    ∀ r : Fin n, i ≤ r →
      gtJ (JNum.abs (A r i)) (JNum.abs (A (pivotRowJ A i) i)) = false := by
  intro r hr
  obtain ⟨h1, h2⟩ := pivotJ_foldl_max A i ((List.finRange n).drop (i.val + 1)) i
  rcases eq_or_lt_of_le hr with rfl | hlt
  · exact h1
  · exact h2 r ((mem_drop_finRange r).mpr (by omega))

theorem geAuxJ_succ (st : (Fin n → Fin n → JNum) × (Fin n → JNum)) {t : ℕ} (ht : t < n) :
    geAuxJ st (t + 1) = geStepJ (geAuxJ st t) ⟨t, ht⟩ := by
  rw [geAuxJ, dif_pos ht]

theorem geAuxJ_succ_ge (st : (Fin n → Fin n → JNum) × (Fin n → JNum)) {t : ℕ} (ht : ¬ t < n) :
    geAuxJ st (t + 1) = geAuxJ st t := by
  rw [geAuxJ, dif_neg ht]

theorem geStepJ_row_lt (st : (Fin n → Fin n → JNum) × (Fin n → JNum)) (i : Fin n)
    {r : Fin n} (hr : r < i) :
    (∀ c, (geStepJ st i).1 r c = st.1 r c) ∧ (geStepJ st i).2 r = st.2 r := by
  have hm := pivotRowJ_ge st.1 i
  have hri : r ≠ i := ne_of_lt hr
  have hrm : r ≠ pivotRowJ st.1 i := ne_of_lt (lt_of_lt_of_le hr hm)
  constructor
  · intro c
    show (elimBelowJ _ _ i).1 r c = st.1 r c
    rw [elimBelowJ]
    simp only
    rw [if_neg (by rintro ⟨hi, -⟩; exact absurd (lt_trans hr hi) (lt_irrefl _)), swapRowsFrom]
    by_cases hc : i ≤ c
    · rw [if_pos hc, if_neg hri, if_neg hrm]
    · rw [if_neg hc]
  · show (elimBelowJ _ _ i).2 r = st.2 r
    rw [elimBelowJ]
    simp only
    rw [if_neg (not_lt.mpr (le_of_lt hr)), swapB, if_neg hri, if_neg hrm]

theorem geStepJ_diag (st : (Fin n → Fin n → JNum) × (Fin n → JNum)) (i : Fin n) :
    (geStepJ st i).1 i i = st.1 (pivotRowJ st.1 i) i := by
  show (elimBelowJ _ _ i).1 i i = _
  rw [elimBelowJ]
  simp only
  rw [if_neg (by rintro ⟨hi, -⟩; exact absurd hi (lt_irrefl _)), swapRowsFrom,
    if_pos (le_refl i), if_pos rfl]

theorem geAuxJ_freeze (st : (Fin n → Fin n → JNum) × (Fin n → JNum)) {t s : ℕ} (hts : t ≤ s) :
    ∀ r : Fin n, r.val < t →
      (∀ c, (geAuxJ st s).1 r c = (geAuxJ st t).1 r c) ∧ (geAuxJ st s).2 r = (geAuxJ st t).2 r := by
  induction s with
  | zero =>
    intro r hr
    have : t = 0 := Nat.le_zero.mp hts
    subst this
    exact ⟨fun _ => rfl, rfl⟩
  | succ s ih =>
    intro r hr
    rcases Nat.lt_or_ge t (s + 1) with h | h
    · have hts' : t ≤ s := by omega
      by_cases hs : s < n
      · rw [geAuxJ_succ st hs]
        have hrs : r < (⟨s, hs⟩ : Fin n) := by
          show r.val < s
          omega
        obtain ⟨hA, hB⟩ := geStepJ_row_lt (geAuxJ st s) ⟨s, hs⟩ hrs
        obtain ⟨ihA, ihB⟩ := ih hts' r hr
        exact ⟨fun c => (hA c).trans (ihA c), hB.trans ihB⟩
      · rw [geAuxJ_succ_ge st hs]
        exact ih hts' r hr
    · have : t = s + 1 := by omega
      subst this
      exact ⟨fun _ => rfl, rfl⟩

end JNumSolverFacts

section JNumZeroPivot

open JNum

variable {n : ℕ}

/-- If the pivot selected at step `t` is exactly zero, every right-hand-side
entry below row `t` becomes `NaN` in that step: the multiplier is
`-(A[k][t]/0)` with `A[k][t] ∈ {NaN, 0}` (pivot maximality), i.e. `NaN`. -/
theorem geStepJ_B_nan_of_pivot_zero (st : (Fin n → Fin n → JNum) × (Fin n → JNum)) (t : Fin n)
    (hpiv : (geStepJ st t).1 t t = fin 0) :
    ∀ k : Fin n, t < k → (geStepJ st t).2 k = nan := by
  have hm := pivotRowJ_ge st.1 t
  have hpv : st.1 (pivotRowJ st.1 t) t = fin 0 := by
    rw [← geStepJ_diag]
    exact hpiv
  have hcol : ∀ k : Fin n, t ≤ k → st.1 k t = nan ∨ st.1 k t = fin 0 := by
    intro k hk
    apply gtJ_abs_fin0
    have hmax := gtJ_abs_le_pivotRowJ st.1 t k hk
    rw [hpv] at hmax
    simpa [JNum.abs] using hmax
  intro k hk
  show (elimBelowJ (swapRowsFrom st.1 t (pivotRowJ st.1 t))
      (swapB st.2 t (pivotRowJ st.1 t)) t).2 k = nan
  rw [elimBelowJ]
  simp only
  rw [if_pos hk]
  have hAtt : swapRowsFrom st.1 t (pivotRowJ st.1 t) t t = fin 0 := by
    rw [swapRowsFrom, if_pos (le_refl t), if_pos rfl]
    exact hpv
  have hAkt : swapRowsFrom st.1 t (pivotRowJ st.1 t) k t = nan ∨
      swapRowsFrom st.1 t (pivotRowJ st.1 t) k t = fin 0 := by
    rw [swapRowsFrom, if_pos (le_refl t), if_neg (ne_of_gt hk)]
    by_cases hkm : k = pivotRowJ st.1 t
    · rw [if_pos hkm]
      exact hcol t (le_refl t)
    · rw [if_neg hkm]
      exact hcol k (le_of_lt hk)
  have hdiv : div (swapRowsFrom st.1 t (pivotRowJ st.1 t) k t)
      (swapRowsFrom st.1 t (pivotRowJ st.1 t) t t) = nan := by
    rw [hAtt]
    rcases hAkt with h | h <;> rw [h] <;> simp [div]
  rw [hdiv, show neg nan = nan from rfl, mul_nan_left]
  exact add_nan_right _

/-- Once the right-hand side below row `t` is all `NaN`, it stays `NaN`
through the remaining elimination steps. -/
theorem geAuxJ_B_nan_propagate (st : (Fin n → Fin n → JNum) × (Fin n → JNum)) (t : Fin n)
    (hbase : ∀ k : Fin n, t < k → (geAuxJ st (t.val + 1)).2 k = nan) :
    ∀ s, t.val + 1 ≤ s → ∀ k : Fin n, t < k → (geAuxJ st s).2 k = nan := by
  intro s
  induction s with
  | zero => omega
  | succ s ih =>
    intro hs1 k hk
    rcases Nat.lt_or_ge s (t.val + 1) with hlt | hge
    · have : s = t.val := by omega
      subst this
      exact hbase k hk
    · by_cases hs : s < n
      · rw [geAuxJ_succ st hs]
        have ihk : ∀ k' : Fin n, t < k' → (geAuxJ st s).2 k' = nan := fun k' hk' => ih hge k' hk'
        set st' := geAuxJ st s with hst'
        have hm := pivotRowJ_ge st'.1 ⟨s, hs⟩
        have hBswap : ∀ k' : Fin n, t < k' →
            swapB st'.2 ⟨s, hs⟩ (pivotRowJ st'.1 ⟨s, hs⟩) k' = nan := by
          intro k' hk'
          rw [swapB]
          by_cases h1 : k' = ⟨s, hs⟩
          · rw [if_pos h1]
            refine ihk _ ?_
            show t.val < (pivotRowJ st'.1 ⟨s, hs⟩).val
            have := Fin.le_iff_val_le_val.mp hm
            simp only at this
            omega
          · rw [if_neg h1]
            by_cases h2 : k' = pivotRowJ st'.1 ⟨s, hs⟩
            · rw [if_pos h2]
              refine ihk _ ?_
              show t.val < s
              omega
            · rw [if_neg h2]
              exact ihk k' hk'
        show (geStepJ st' ⟨s, hs⟩).2 k = nan
        show (elimBelowJ (swapRowsFrom st'.1 ⟨s, hs⟩ (pivotRowJ st'.1 ⟨s, hs⟩))
            (swapB st'.2 ⟨s, hs⟩ (pivotRowJ st'.1 ⟨s, hs⟩)) ⟨s, hs⟩).2 k = nan
        rw [elimBelowJ]
        simp only
        by_cases hks : (⟨s, hs⟩ : Fin n) < k
        · rw [if_pos hks, hBswap k hk]
          exact add_nan_left _
        · rw [if_neg hks]
          exact hBswap k hk
      · rw [geAuxJ_succ_ge st hs]
        exact ih hge k hk

/-- With a zero diagonal entry at row `t` and `NaN` right-hand sides below
row `t`, back substitution never produces a finite value: rows below `t`
subtract `NaN`, row `t` divides by zero, and every earlier row sums a
multiple of the non-finite value of row `t`. -/
theorem backSubJ_nonfinite (F : Fin n → Fin n → JNum) (Bf : Fin n → JNum) (t : Fin n)
    (hdiag : F t t = fin 0) (hB : ∀ k : Fin n, t < k → Bf k = nan) :
    ∀ fuel, ∀ j : Fin n, n - j.val ≤ fuel → (backSubJ F Bf fuel j).isFinite = false := by
  intro fuel
  induction fuel with
  | zero =>
    intro j hj
    exact absurd hj (by have := j.isLt; omega)
  | succ fuel ih =>
    intro j hj
    rw [backSubJ]
    rcases lt_trichotomy j t with hjt | rfl | htj
    · apply div_nonfinite_left
      apply sub_nonfinite_right
      apply sum_nonfinite (j := t)
      · exact Finset.mem_filter.mpr ⟨Finset.mem_univ t, hjt⟩
      · apply mul_nonfinite_right
        apply ih
        have h2 : j.val < t.val := hjt
        have := t.isLt
        omega
    · rw [hdiag]
      exact div_fin_zero_nonfinite _
    · rw [hB j htj, sub_nan_left, div_nan_left]
      rfl

/-- If the pivot actually divided by at some step `t` of the forward
elimination is exactly zero, every component returned by `solveMatrix` is
non-finite (IEEE semantics). -/
theorem solveMatrixJ_nonfinite (A : Fin n → Fin n → JNum) (B : Fin n → JNum) (t : Fin n)
    (hpiv : pivotValJ A B t = fin 0) :
    ∀ j, (solveMatrixJ A B j).isFinite = false := by
  have ht : t.val < n := t.isLt
  have he : geAuxJ (A, B) (t.val + 1) = geStepJ (geAuxJ (A, B) t.val) t :=
    geAuxJ_succ (A, B) ht
  have hpiv1 : (geAuxJ (A, B) (t.val + 1)).1 t t = fin 0 := hpiv
  have hbase : ∀ k : Fin n, t < k → (geAuxJ (A, B) (t.val + 1)).2 k = nan := by
    rw [he] at hpiv1 ⊢
    exact geStepJ_B_nan_of_pivot_zero _ t hpiv1
  have hBn : ∀ k : Fin n, t < k → (geForwardJ (A, B)).2 k = nan :=
    fun k hk => geAuxJ_B_nan_propagate (A, B) t hbase n (by omega) k hk
  have hFtt : (geForwardJ (A, B)).1 t t = fin 0 := by
    rw [geForwardJ,
      (geAuxJ_freeze (A, B) (show t.val + 1 ≤ n from ht) t (Nat.lt_succ_self _)).1 t]
    exact hpiv1
  intro j
  show (backSubJ (geForwardJ (A, B)).1 (geForwardJ (A, B)).2 n j).isFinite = false
  exact backSubJ_nonfinite _ _ t hFtt hBn n j (by have := j.isLt; omega)

/-- If coefficient `H[2]` is non-finite, the pixel-loop body leaves the
pixel white: `u` is non-finite, `Math.round(u)` is non-finite, and a
non-finite value fails `srcX >= 0 && srcX < srcW`. -/
theorem warpPixelJ_white (H : Fin 8 → JNum) (srcW srcH : ℕ) (src : ℕ → ℕ → Pixel) (x y : ℕ)
    (h2 : (H 2).isFinite = false) :
    warpPixelJ H srcW srcH src x y = whitePixel := by
  have hu : (div (mul (H 0) (fin x) + mul (H 1) (fin y) + H 2)
      (mul (H 6) (fin x) + mul (H 7) (fin y) + fin 1)).isFinite = false :=
    div_nonfinite_left (add_nonfinite_right h2 _) _
  have hb := bounds_false (rnd_nonfinite hu) srcW
  simp only [warpPixelJ]
  rw [hb]
  simp

end JNumZeroPivot

section ClaimC6

open JNum

/-- The bounds test of the pixel loop (line 155) under IEEE semantics,
as a standalone predicate: `srcX >= 0 && srcX < srcW && srcY >= 0 &&
srcY < srcH` on the rounded inverse-mapped coordinates. -/
def warpBoundsJ (H : Fin 8 → JNum) (srcW srcH : ℕ) (x y : ℕ) : Bool :=
  let denom := mul (H 6) (fin x) + mul (H 7) (fin y) + fin 1
  let u := div (mul (H 0) (fin x) + mul (H 1) (fin y) + H 2) denom
  let v := div (mul (H 3) (fin x) + mul (H 4) (fin y) + H 5) denom
  geJ (rnd u) (fin 0) && gtJ (fin srcW) (rnd u) && geJ (rnd v) (fin 0) && gtJ (fin srcH) (rnd v)

set_option maxRecDepth 4000 in
/-- **C6.** For every source raster and every quadrilateral on which the
forward elimination actually divides by an exactly-zero pivot (the
operational reading of "the 8×8 homography system is singular" for this
solver; it happens e.g. when all four corners coincide), `warpPerspective`
does not crash: every solved coefficient is non-finite (`NaN`/`±∞`), the
rounded source coordinates of every destination pixel fail the bounds
test, and the returned raster is entirely the opaque white prefill. -/
theorem C6_singular_nan_white (srcW srcH : ℕ) (src : ℕ → ℕ → Pixel) (pts : Fin 4 → Point)
    (hsing : ∃ t : Fin 8, pivotValJ (homSysAJ pts) (homSysBJ pts) t = fin 0) :
    (∀ j, ((warpPerspectiveJ srcW srcH src pts).H j).isFinite = false) ∧
    (∀ x y : ℕ, warpBoundsJ (warpHJ pts) srcW srcH x y = false) ∧
    (∀ x y : ℕ, (warpPerspectiveJ srcW srcH src pts).out x y = whitePixel) := by
  obtain ⟨t, ht⟩ := hsing
  have hH : ∀ j, (warpHJ pts j).isFinite = false :=
    solveMatrixJ_nonfinite (homSysAJ pts) (homSysBJ pts) t ht
  have hu : ∀ x y : ℕ,
      (div (mul (warpHJ pts 0) (fin x) + mul (warpHJ pts 1) (fin y) + warpHJ pts 2)
        (mul (warpHJ pts 6) (fin x) + mul (warpHJ pts 7) (fin y) + fin 1)).isFinite = false :=
    fun x y => div_nonfinite_left (add_nonfinite_right (hH 2) _) _
  refine ⟨?_, ?_, ?_⟩
  · intro j
    simp only [warpPerspectiveJ]
    exact hH j
  · intro x y
    simp only [warpBoundsJ]
    rw [bounds_false (rnd_nonfinite (hu x y)) srcW]
    simp
  · intro x y
    simp only [warpPerspectiveJ]
    exact warpPixelJ_white _ _ _ _ _ _ (hH 2)

/-- The fully degenerate quadrilateral used as the concrete singular
input for C6: all four corners coincide at `(3, 7)`. -/
def ptsC6 : Fin 4 → Point := fun _ => ⟨3, 7⟩

theorem warpDims_C6 : warpDims ptsC6 = (0, 0) := by
  norm_num [warpDims, distSq, ptsC6, roundSqrt, Nat.sqrt_zero]

/-- Witness for C6: on the degenerate quadrilateral, the very first pivot
of the elimination is exactly zero (the whole first column is zero since
`maxWidth = 0`), and the 5×5 output raster is entirely white. -/
theorem C6_singular_nan_white_witness :
    (∃ t : Fin 8, pivotValJ (homSysAJ ptsC6) (homSysBJ ptsC6) t = fin 0) ∧
    ((∀ j, ((warpPerspectiveJ 5 5 (fun x y => ⟨x, y, 0, 255⟩) ptsC6).H j).isFinite = false) ∧
     (∀ x y : ℕ, warpBoundsJ (warpHJ ptsC6) 5 5 x y = false) ∧
     (∀ x y : ℕ, (warpPerspectiveJ 5 5 (fun x y => ⟨x, y, 0, 255⟩) ptsC6).out x y =
       whitePixel)) := by
  have h8 : (0 : ℕ) < 8 := by norm_num
  have hdx : ∀ i : Fin 4, (warpDst ptsC6 i).x = 0 := by
    intro i
    fin_cases i <;> simp [warpDst, warpDims_C6]
  have hcol : ∀ r : Fin 8, homSysAJ ptsC6 r 0 = fin 0 := by
    intro r
    show fin (homSysA ptsC6 (warpDst ptsC6) r 0) = fin 0
    congr 1
    by_cases hr : r.val % 2 = 0
    · simp only [homSysA, Matrix.of_apply, if_pos hr, Matrix.cons_val_zero]
      exact hdx _
    · simp only [homSysA, Matrix.of_apply, if_neg hr, Matrix.cons_val_zero]
  have key : (geStepJ (homSysAJ ptsC6, homSysBJ ptsC6) 0).1 0 0 = fin 0 := by
    rw [geStepJ_diag]
    exact hcol _
  have hsing : pivotValJ (homSysAJ ptsC6) (homSysBJ ptsC6) 0 = fin 0 := by
    show (geAuxJ (homSysAJ ptsC6, homSysBJ ptsC6) (0 + 1)).1 0 0 = fin 0
    rw [geAuxJ_succ (homSysAJ ptsC6, homSysBJ ptsC6) h8]
    exact key
  exact ⟨⟨0, hsing⟩,
    C6_singular_nan_white 5 5 (fun x y => ⟨x, y, 0, 255⟩) ptsC6 ⟨0, hsing⟩⟩

end ClaimC6
